import Mathlib

/-!
oci-umount: mount resolution and selective unmount.

A shallow embedding of `src/oci-umount.c`.

Conventions of the embedding

* A C string is the list of its characters before the terminating NUL
  (`CStr`); strings hold no NUL character.
* `unsigned` values are naturals reduced modulo `2^32`, `int` values are
  integers; every conversion between the two is written out.
* Every allocation (`malloc`, `realloc`, `strdup`, `getline`) succeeds.
* A `while (1)` loop takes a fuel argument; running out of fuel is the
  outcome `Outcome.nofuel`, a write past the end of a fixed-size buffer is
  the outcome `Outcome.overflow`.
* System calls and files are parameters of the model (`Sys`); the model
  records every `umount2` attempt in a trace with the value the call returned.
-/

namespace OciUmount

/-- A C string: the characters before the terminating NUL. -/
abbrev CStr := List Char

/-- Value of `PATH_MAX` in `linux/limits.h`. -/
def PATH_MAX : Nat := 4096

/-- Constant `MAX_UMOUNTS` of the source. -/
def MAX_UMOUNTS : Nat := 128

/-- Constant `MAX_MAPS` of the source. -/
def MAX_MAPS : Nat := 128

/-- Value of `EXIT_FAILURE` in `stdlib.h`. -/
def EXIT_FAILURE : Int := 1

/-- Value of `EXIT_SUCCESS` in `stdlib.h`. -/
def EXIT_SUCCESS : Int := 0

/-- Result of running a piece of the program. -/
inductive Outcome (α : Type) where
  /-- The call returns. -/
  | ret (a : α)
  /-- The call writes past the end of a fixed-size buffer (undefined behaviour). -/
  | overflow
  /-- The loop is still running when the fuel is used up. -/
  | nofuel
  deriving DecidableEq, Repr

/-- Conversion of an `unsigned` to `int` (two's complement, 32 bits). -/
def int_of_unsigned (n : Nat) : Int :=
  if n % 2 ^ 32 < 2 ^ 31 then ((n % 2 ^ 32 : Nat) : Int) else ((n % 2 ^ 32 : Nat) : Int) - 2 ^ 32

/-- Conversion of an `int` to `unsigned`. -/
def unsigned_of_int (i : Int) : Nat :=
  (i % 2 ^ 32).toNat

/-- Source struct `mount_info`. -/
structure mount_info where
  destination : CStr
  mntid : Nat
  parent_mntid : Nat
  deriving DecidableEq, Repr

/-- Source struct `config_mount_info`. -/
structure config_mount_info where
  source : CStr
  destination : CStr
  deriving DecidableEq, Repr

/-- Source struct `host_mount_info`. -/
structure host_mount_info where
  path : CStr
  submounts_only : Bool
  deriving DecidableEq, Repr

/-! ## libc string functions -/

/-- `memrchr (p, c, n)`: index of the last `c` among the first `n` characters. -/
def memrchr (p : CStr) (c : Char) : Nat → Option Nat
  | 0 => none
  | n + 1 => if p[n]? = some c then some n else memrchr p c n

/-- The loop `for (runp = i; runp != path; --runp) if (runp[-1] != '/') break;`
of glibc's `dirname`. -/
def back_over_slashes (p : CStr) : Nat → Nat
  | 0 => 0
  | r + 1 => if p[r]? = some '/' then back_over_slashes p r else r + 1

/-- The function `dirname` of glibc (`misc/dirname.c`), which the program
calls through `libgen.h`. The result is the string the returned pointer
designates: the argument cut at the last slash that ends the directory part,
`"/"` for a path directly under the root, `"."` for a path without a slash.
As POSIX allows and glibc's test suite requires, a path that begins with
exactly two slashes keeps both: the result for `"//usr"` and for `"//"` is
`"//"`. -/
def dirname (path : CStr) : CStr :=
  let last_slash : Option Nat := memrchr path '/' path.length
  let last_slash : Option Nat :=
    match last_slash with
    | some ls =>
      if ls ≠ 0 ∧ ls + 1 = path.length then
        let runp := back_over_slashes path ls
        if runp ≠ 0 then memrchr path '/' runp else some ls
      else some ls
    | none => none
  match last_slash with
  | some ls =>
    let runp := back_over_slashes path ls
    let cut := if runp = 0 then (if ls = 1 then 2 else 1) else runp
    path.take cut
  | none => ['.']

/-- `strncmp (a, b, n) == 0` on NUL-free strings: the first `n` characters
agree, a string that ends earlier counting as different from a longer one. -/
def strncmp_eq (a b : CStr) (n : Nat) : Bool :=
  a.take n == b.take n

/-- The function `isspace` of `ctype.h` in the C locale. -/
def isspace (c : Char) : Bool :=
  c == ' ' || c == '\t' || c == '\n' || c == '\x0b' || c == '\x0c' || c == '\r'

/-! ## PathMapper -/

/-- Source function `map_one_entry`. The mapping array `cont_mnt` is the list
of the entries filled so far, `*nr_mapped` is its length. Returns the return
value and the array. -/
def map_one_entry : List config_mount_info → CStr → List CStr → Nat → Option CStr →
    Outcome (Int × List CStr)
  | [], _, cont_mnt, _, _ => .ret (0, cont_mnt)
  | cm :: rest, host_mnt, cont_mnt, max_mapped, suffix =>
    let suffix_len := match suffix with
      | some s => s.length
      | none => 0
    if host_mnt ≠ cm.source then
      map_one_entry rest host_mnt cont_mnt max_mapped suffix
    else if cm.destination.length + suffix_len + 1 > PATH_MAX then
      -- the length check only logs; strcpy/strcat then run past `path[PATH_MAX]`
      .overflow
    else
      let path := cm.destination ++ (match suffix with
        | some s => s
        | none => [])
      if cont_mnt.length ≥ max_mapped then .ret (-1, cont_mnt)
      else map_one_entry rest host_mnt (cont_mnt ++ [path]) max_mapped suffix

/-- The `do ... while (1)` loop of `map_mount_host_to_container`; `str` is the
candidate of the current round. -/
def map_loop (config_mounts : List config_mount_info) (host_mnt : CStr) (max_mapped : Nat) :
    Nat → CStr → Option CStr → List CStr → Outcome (Int × List CStr)
  | 0, _, _, _ => .nofuel
  | fuel + 1, str, suffix, cont_mnt =>
    match map_one_entry config_mounts str cont_mnt max_mapped suffix with
    | .ret (ret, cont_mnt1) =>
      if ret < 0 then
        -- free_char_ptr_array_entries clears the array
        .ret (ret, [])
      else if str = ['/'] then
        .ret (int_of_unsigned cont_mnt1.length, cont_mnt1)
      else
        let str1 := dirname str
        let suffix1 := if str1 = ['/'] then host_mnt else host_mnt.drop str1.length
        map_loop config_mounts host_mnt max_mapped fuel str1 (some suffix1) cont_mnt1
    | .overflow => .overflow
    | .nofuel => .nofuel

/-- Source function `map_mount_host_to_container`: the return value and the
mappings left in `cont_mnt`. -/
def map_mount_host_to_container (fuel : Nat) (config_mounts : List config_mount_info)
    (host_mnt : CStr) (max_mapped : Nat) : Outcome (Int × List CStr) :=
  map_loop config_mounts host_mnt max_mapped fuel host_mnt none []

/-! ## MountTable Builder -/

/-- The test of `strspn` and `strcspn`: `c` is one of the characters of `delim`. -/
def is_delim (delim : List Char) (c : Char) : Bool :=
  delim.contains c

/-- One call of libc `strtok` on a string whose scan position is at `s`:
`none` when no token is left, else the token and the scan position saved for
the next call (`strspn`, `strcspn`, then one step over the delimiter that
was overwritten by NUL). -/
def strtok (delim : List Char) (s : CStr) : Option (CStr × CStr) :=
  let s1 := s.dropWhile (fun c => is_delim delim c)
  if s1 = [] then none
  else some (s1.takeWhile (fun c => !is_delim delim c),
    (s1.dropWhile (fun c => !is_delim delim c)).drop 1)

/-- Digits read by `strtol` in base 10, accumulated from the left. -/
def strtol_digits : CStr → Nat → Nat
  | [], acc => acc
  | c :: cs, acc => if c.isDigit then strtol_digits cs (10 * acc + (c.toNat - '0'.toNat)) else acc

/-- The function `atoi` of glibc, `(int) strtol (nptr, NULL, 10)`: leading
white space, an optional sign, then digits; the `long` is clamped to its
range and converted to `int`. -/
def atoi (nptr : CStr) : Int :=
  let s := nptr.dropWhile isspace
  let v : Int := match s with
    | '-' :: r => max (-(strtol_digits r 0 : Int)) (-(2 ^ 63))
    | '+' :: r => min (strtol_digits r 0 : Int) (2 ^ 63 - 1)
    | _ => min (strtol_digits s 0 : Int) (2 ^ 63 - 1)
  int_of_unsigned (unsigned_of_int v)

/-- Local state of `parse_mountinfo`: the allocated table (a zeroed element
is `none`), its size in elements (`table_sz_bytes / elem_sz`, the byte count
staying within `int`), `nr_elem` and `table_idx`. -/
structure mnt_table_state where
  mnt_table : List (Option mount_info)
  table_sz : Nat
  nr_elem : Nat
  table_idx : Nat
  deriving DecidableEq, Repr

/-- Source function `grow_mountinfo_table`, sizes counted in elements:
`realloc` keeps the old contents, the new area is zeroed. -/
def grow_mountinfo_table (curr_table : List (Option mount_info)) (curr_sz new_sz : Nat) :
    List (Option mount_info) :=
  (curr_table.take new_sz).take curr_sz ++ List.replicate (new_sz - curr_sz) none

/-- The loop `while ((token = strtok (str, " ")) != NULL)` of
`parse_mountinfo`; `s` is the scan position of `strtok`. A store outside the
allocated table is `Outcome.overflow`. -/
def token_loop : Nat → CStr → Nat → Nat → Nat → mnt_table_state → Outcome mnt_table_state
  | 0, _, _, _, _, _ => .nofuel
  | fuel + 1, s, token_idx, mntid, parent_mntid, st =>
    match strtok [' '] s with
    | none => .ret st
    | some (token, save) =>
      let token_idx := token_idx + 1
      let mntid := if token_idx = 1 then unsigned_of_int (atoi token) else mntid
      let parent_mntid := if token_idx = 2 then unsigned_of_int (atoi token) else parent_mntid
      if token_idx ≠ 5 then token_loop fuel save token_idx mntid parent_mntid st
      else if st.table_idx < st.mnt_table.length then
        let tbl := st.mnt_table.set st.table_idx (some ⟨token, mntid, parent_mntid⟩)
        let idx := st.table_idx + 1
        if idx = st.nr_elem then
          let new_sz := st.table_sz + 64
          token_loop fuel save token_idx mntid parent_mntid
            ⟨grow_mountinfo_table tbl st.table_sz new_sz, new_sz, st.nr_elem + 64, idx⟩
        else
          token_loop fuel save token_idx mntid parent_mntid ⟨tbl, st.table_sz, st.nr_elem, idx⟩
      else .overflow

/-- The loop `while ((getline (&line, &len, fp)) != -1)` of `parse_mountinfo`
over the lines of the file; a line of `n` characters has at most `n` tokens. -/
def line_loop : List CStr → mnt_table_state → Outcome mnt_table_state
  | [], st => .ret st
  | line :: rest, st =>
    match token_loop (line.length + 1) line 0 0 0 st with
    | .ret st1 => line_loop rest st1
    | .overflow => .overflow
    | .nofuel => .nofuel

/-- Source function `parse_mountinfo`. The argument is the content of
`/proc/self/mountinfo` as the lines `getline` returns (each with its
newline), or `none` when `fopen` fails. Returns the return value and the
first `*sz` elements of `*info`. -/
def parse_mountinfo (mountinfo : Option (List CStr)) : Outcome (Int × List mount_info) :=
  match mountinfo with
  | none => .ret (-1, [])
  | some lines =>
    match line_loop lines ⟨List.replicate (64 + 1) none, 64 + 1, 64, 0⟩ with
    | .ret st => .ret (0, (st.mnt_table.take st.table_idx).filterMap id)
    | .overflow => .overflow
    | .nofuel => .nofuel

/-! ## UnmountExecutor -/

/-- Source function `is_mounted`. -/
def is_mounted (path : CStr) : List mount_info → Bool
  | [] => false
  | m :: rest => if m.destination = path then true else is_mounted path rest

/-- Source function `find_mntid`; the `unsigned` id is returned as `int`. -/
def find_mntid (path : CStr) : List mount_info → Int
  | [] => -1
  | m :: rest => if path = m.destination then int_of_unsigned m.mntid else find_mntid path rest

/-- Source function `parent_mntid`, the `while (1)` loop run on `dname`. -/
def parent_mntid (mnt_table : List mount_info) : Nat → CStr → Outcome Int
  | 0, _ => .nofuel
  | fuel + 1, dname =>
    let mntid := find_mntid dname mnt_table
    if mntid ≥ 0 then .ret mntid
    else if dname = ['/'] then .ret (-1)
    else
      let dname1 := dirname dname
      if dname1 = ['.'] then .ret (-1)
      else parent_mntid mnt_table fuel dname1

/-- One `umount2 (path, MNT_DETACH)` attempt: the path and the value returned. -/
abbrev Trace := List (CStr × Int)

/-- The outcome of `umount2 (path, MNT_DETACH)` given the attempts made so far. -/
abbrev Umount2 := Trace → CStr → Int

/-- The submount loop `for (i = table_sz - 1; i >= 0; i--)` of `unmount`, run
on the table in reverse order (`table_sz` is the `int` counter `table_idx` of
`parse_mountinfo`, so the index starts at the last record). -/
def submount_loop (umount2 : Umount2) (umount_path : CStr) (mntid : Int) :
    List mount_info → Trace → Trace
  | [], tr => tr
  | m :: rest, tr =>
    if m.parent_mntid ≠ unsigned_of_int mntid then
      submount_loop umount2 umount_path mntid rest tr
    else if !strncmp_eq umount_path m.destination umount_path.length then
      submount_loop umount2 umount_path mntid rest tr
    else
      submount_loop umount2 umount_path mntid rest (tr ++ [(m.destination, umount2 tr m.destination)])

/-- Source function `unmount`: the return value and the trace of detach
attempts, extended from `tr`. -/
def unmount (fuel : Nat) (umount2 : Umount2) (umount_path : CStr) (submounts_only : Bool)
    (mnt_table : List mount_info) (tr : Trace) : Outcome (Int × Trace) :=
  if !submounts_only then
    if !is_mounted umount_path mnt_table then .ret (0, tr)
    else
      let ret := umount2 tr umount_path
      .ret (ret, tr ++ [(umount_path, ret)])
  else
    match parent_mntid mnt_table fuel umount_path with
    | .ret mntid =>
      if mntid < 0 then .ret (-1, tr)
      else .ret (0, submount_loop umount2 umount_path mntid mnt_table.reverse tr)
    | .overflow => .overflow
    | .nofuel => .nofuel

/-! ## Orchestrator -/

/-- Source function `iscomment`. -/
def iscomment : CStr → Int
  | [] => 1
  | c :: rest => if isspace c then iscomment rest else if c = '#' then 1 else 0

/-- Result of `fopen (MOUNTCONF, "r")`: `ENOENT`, another error, or the lines
`getline` then returns (each with the newline that ends it, when there is one). -/
inductive ConfFile where
  | enoent
  | failed
  | lines (ls : List CStr)

/-- A value of the OCI bundle's `config.json` as `parseBundle` reads it:
`root.path` and the `mounts` array, each element with its `destination` and
`source` strings when present. -/
structure ConfigJson where
  root_path : Option CStr
  mounts : Option (List (Option CStr × Option CStr))

/-- What opening, reading and parsing a bundle's `config.json` gives. -/
inductive BundleConfig where
  | open_failed
  | read_failed
  | parse_failed
  | parsed (c : ConfigJson)

/-- The fields of the OCI state object `main` and `parseBundle` look up. -/
structure StateJson where
  id : Option CStr
  pid : Option Int
  bundle : Option CStr
  bundlePath : Option CStr

/-- The environment of one run: files, system calls and the state on stdin.
`stdin_state` is `none` when stdin cannot be read and `some none` when it
does not parse; `mountinfo` is the table of the namespace joined by `setns`. -/
structure Sys where
  stdin_state : Option (Option StateJson)
  bundle_config : CStr → BundleConfig
  mountconf : ConfFile
  realpath : CStr → Option CStr
  open_ns : Bool
  setns : Bool
  chdir : Bool
  mountinfo : Option (List CStr)
  umount2 : Umount2

/-- Lines 543-549 of `prestart`: the test for a trailing `"/*"` on the line of
length `read`, and the line after `line[read - 1] = '\0'` when it is found. -/
def submounts_mark (line : CStr) (read : Nat) : Bool × CStr :=
  if read ≥ 2 ∧ line.get? (read - 1) = some '*' ∧ line.get? (read - 2) = some '/' then
    (true, line.take (read - 1))
  else (false, line)

/-- The loop of `prestart` over the lines of the static configuration.
Returns the value of an early `return` if any, the table `mounts_on_host`
(`nr_umounts` is its length) and the strings passed to `realpath`, in order.
A line is never empty: `getline` returns at least one character. -/
def conf_loop (realpath : CStr → Option CStr) :
    List CStr → List host_mount_info → List CStr → Option Int × List host_mount_info × List CStr
  | [], mounts_on_host, calls => (none, mounts_on_host, calls)
  | line :: rest, mounts_on_host, calls =>
    let read := line.length
    -- line[read - 1] = '\0'; read--;
    let line := line.take (read - 1)
    let read := read - 1
    if iscomment line ≠ 0 then conf_loop realpath rest mounts_on_host calls
    else if mounts_on_host.length = MAX_UMOUNTS then (some EXIT_FAILURE, mounts_on_host, calls)
    else
      let (submounts_only, line) := submounts_mark line read
      match realpath line with
      | none => conf_loop realpath rest mounts_on_host (calls ++ [line])
      | some real_path =>
        conf_loop realpath rest (mounts_on_host ++ [⟨real_path, submounts_only⟩]) (calls ++ [line])

/-- The `%s` conversion of glibc's `snprintf` for a possibly null pointer. -/
def fmt_s (s : Option CStr) : CStr :=
  match s with
  | some x => x
  | none => "(null)".toList

/-- The loop `for (int j = 0; j < nr_mapped; j++)` of `prestart`. -/
def mapped_loop (fuel : Nat) (umount2 : Umount2) (rootfs : Option CStr) (submounts_only : Bool)
    (mnt_table : List mount_info) : List CStr → Trace → Outcome Trace
  | [], tr => .ret tr
  | mapped_path :: rest, tr =>
    let umount_path := (fmt_s rootfs ++ mapped_path).take (PATH_MAX - 1)
    match unmount fuel umount2 umount_path submounts_only mnt_table tr with
    | .ret (_, tr1) => mapped_loop fuel umount2 rootfs submounts_only mnt_table rest tr1
    | .overflow => .overflow
    | .nofuel => .nofuel

/-- The loop `for (i = 0; i < nr_umounts; i++)` of `prestart`. -/
def target_loop (fuel : Nat) (umount2 : Umount2) (rootfs : Option CStr)
    (config_mounts : List config_mount_info) (mnt_table : List mount_info) :
    List host_mount_info → Trace → Outcome Trace
  | [], tr => .ret tr
  | hm :: rest, tr =>
    match map_mount_host_to_container fuel config_mounts hm.path MAX_MAPS with
    | .ret (nr_mapped, mapped_paths) =>
      if nr_mapped < 0 then target_loop fuel umount2 rootfs config_mounts mnt_table rest tr
      else if nr_mapped = 0 then target_loop fuel umount2 rootfs config_mounts mnt_table rest tr
      else
        match mapped_loop fuel umount2 rootfs hm.submounts_only mnt_table
            (mapped_paths.take nr_mapped.toNat) tr with
        | .ret tr1 => target_loop fuel umount2 rootfs config_mounts mnt_table rest tr1
        | .overflow => .overflow
        | .nofuel => .nofuel
    | .overflow => .overflow
    | .nofuel => .nofuel

/-- What a call of `prestart` did: its return value, the strings it passed to
`realpath`, whether it joined the target namespace, and its detach attempts. -/
structure PrestartRun where
  ret : Int
  realpath_calls : List CStr
  joined_ns : Bool
  detaches : Trace
  deriving DecidableEq, Repr

/-- Source function `prestart`. -/
def prestart (fuel : Nat) (sys : Sys) (rootfs : Option CStr)
    (config_mounts : List config_mount_info) : Outcome PrestartRun :=
  match sys.mountconf with
  | .enoent => .ret ⟨0, [], false, []⟩
  | .failed => .ret ⟨EXIT_FAILURE, [], false, []⟩
  | .lines ls =>
    match conf_loop sys.realpath ls [] [] with
    | (some r, _, calls) => .ret ⟨r, calls, false, []⟩
    | (none, mounts_on_host, calls) =>
      if mounts_on_host.length = 0 then .ret ⟨0, calls, false, []⟩
      else if !sys.open_ns then .ret ⟨EXIT_FAILURE, calls, false, []⟩
      else if !sys.setns then .ret ⟨EXIT_FAILURE, calls, false, []⟩
      else if !sys.chdir then .ret ⟨EXIT_FAILURE, calls, true, []⟩
      else
        match parse_mountinfo sys.mountinfo with
        | .ret (ret, mnt_table) =>
          if ret < 0 then .ret ⟨EXIT_FAILURE, calls, true, []⟩
          else
            match target_loop fuel sys.umount2 rootfs config_mounts mnt_table mounts_on_host [] with
            | .ret tr => .ret ⟨0, calls, true, tr⟩
            | .overflow => .overflow
            | .nofuel => .nofuel
        | .overflow => .overflow
        | .nofuel => .nofuel

/-- The loop of `parseBundle` over the `mounts` array; `none` when an element
lacks its `destination` or its `source`. -/
def bundle_mounts : List (Option CStr × Option CStr) → Option (List config_mount_info)
  | [] => some []
  | (some destination, some source) :: rest =>
    match bundle_mounts rest with
    | some l => some (⟨source, destination⟩ :: l)
    | none => none
  | _ :: _ => none

/-- Source function `parseBundle`: the return value, `*rootfs` and `*mounts`
(`none` while not assigned). -/
def parseBundle (sys : Sys) (node : StateJson) :
    Int × Option CStr × Option (List config_mount_info) :=
  let v_bundle_path := match node.bundle with
    | some b => some b
    | none => node.bundlePath
  match v_bundle_path with
  | none => (EXIT_FAILURE, none, none)
  | some bundle =>
    let config_file_name := (bundle ++ "/config.json".toList).take (PATH_MAX - 1)
    match sys.bundle_config config_file_name with
    | .open_failed => (EXIT_FAILURE, none, none)
    | .read_failed => (EXIT_FAILURE, none, none)
    | .parse_failed => (EXIT_FAILURE, none, none)
    | .parsed config_node =>
      match config_node.root_path with
      | none => (EXIT_FAILURE, none, none)
      | some lrootfs =>
        let rootfs := if lrootfs.head? = some '/' then lrootfs else bundle ++ ['/'] ++ lrootfs
        match config_node.mounts with
        | none => (EXIT_FAILURE, some rootfs, none)
        | some v_mounts =>
          match bundle_mounts v_mounts with
          | none => (EXIT_FAILURE, some rootfs, none)
          | some config_mounts => (0, some rootfs, some config_mounts)

/-- What a run of `main` did: the exit code and the call of `prestart`, if made. -/
structure MainRun where
  exit_code : Int
  prestart_call : Option PrestartRun
  deriving DecidableEq, Repr

/-- Source function `main`; `argv` holds `argc` strings. -/
def main (fuel : Nat) (sys : Sys) (argv : List CStr) : Outcome MainRun :=
  match sys.stdin_state with
  | none => .ret ⟨EXIT_FAILURE, none⟩
  | some none => .ret ⟨EXIT_FAILURE, none⟩
  | some (some node) =>
    match node.id with
    | none => .ret ⟨EXIT_FAILURE, none⟩
    | some _ =>
      match node.pid with
      | none => .ret ⟨EXIT_FAILURE, none⟩
      | some v_pid =>
        let target_pid := int_of_unsigned (unsigned_of_int v_pid)
        if (argv.length ≥ 2 ∧ argv[1]? = some "prestart".toList) ∨
            (argv.length = 1 ∧ target_pid ≠ 0) then
          let (ret, rootfs, mounts) := parseBundle sys node
          if ret < 0 then .ret ⟨EXIT_FAILURE, none⟩
          else
            let config_mounts := match mounts with
              | some l => l
              | none => []
            match prestart fuel sys rootfs config_mounts with
            | .ret run =>
              if run.ret ≠ 0 then .ret ⟨EXIT_FAILURE, some run⟩ else .ret ⟨EXIT_SUCCESS, some run⟩
            | .overflow => .overflow
            | .nofuel => .nofuel
        else .ret ⟨EXIT_SUCCESS, none⟩

/-! ## Vocabulary of the specification -/

/-- A path component: not empty, without a slash. -/
def is_component (c : CStr) : Prop :=
  c ≠ [] ∧ '/' ∉ c

instance : DecidablePred is_component := fun c => by
  unfold is_component; infer_instance

/-- The string `"/c1/c2/.../cn"` for the components `c1 ... cn`. -/
def join_components : List CStr → CStr
  | [] => []
  | c :: cs => '/' :: c ++ join_components cs

/-- The canonical absolute path with the given components; `"/"` when there
is none. Every canonical absolute path is of this form. -/
def abs_path (comps : List CStr) : CStr :=
  if comps = [] then ['/'] else join_components comps

/-- The mappings the specification's PathMapper emits at the candidate that
keeps the first `i` components of the host path: for every entry whose source
is the candidate, in list order, the destination followed by the residual
suffix. -/
def mappings_at (config_mounts : List config_mount_info) (comps : List CStr) (i : Nat) :
    List CStr :=
  (config_mounts.filter (fun e => e.source = abs_path (comps.take i))).map
    (fun e => e.destination ++ join_components (comps.drop i))

/-- The mappings of the candidates with `i`, `i - 1`, ..., `0` components, in
the order of the climb. -/
def mappings_from (config_mounts : List config_mount_info) (comps : List CStr) : Nat → List CStr
  | 0 => mappings_at config_mounts comps 0
  | i + 1 => mappings_at config_mounts comps (i + 1) ++ mappings_from config_mounts comps i

/-- The number of entries whose source is the candidate with `i`, `i - 1`,
..., or `0` components, an entry counted once for the candidate it matches. -/
def matches_upto (config_mounts : List config_mount_info) (comps : List CStr) : Nat → Nat
  | 0 => config_mounts.countP (fun e => e.source = abs_path (comps.take 0))
  | i + 1 => config_mounts.countP (fun e => e.source = abs_path (comps.take (i + 1)))
      + matches_upto config_mounts comps i

/-- The mapped path of every matching entry fits the buffer `path[PATH_MAX]`
of `map_one_entry`, for the candidates with at most `i` components. -/
def fits_path_max (config_mounts : List config_mount_info) (comps : List CStr) (i : Nat) : Prop :=
  ∀ j, j ≤ i → ∀ e ∈ config_mounts, e.source = abs_path (comps.take j) →
    e.destination.length + (join_components (comps.drop j)).length + 1 ≤ PATH_MAX

/-- The tokens of `s` split on the characters of `delim`: the maximal runs of
characters that are not delimiters. -/
def split_tokens (delim : List Char) : CStr → List CStr
  | [] => []
  | c :: cs =>
    if is_delim delim c then split_tokens delim cs
    else
      match cs with
      | [] => [[c]]
      | d :: _ =>
        if is_delim delim d then [c] :: split_tokens delim cs
        else
          match split_tokens delim cs with
          | [] => [[c]]
          | t :: ts => (c :: t) :: ts

/-- The value of a string of decimal digits. -/
def decimal_value (s : CStr) : Nat :=
  Nat.ofDigits 10 (s.reverse.map (fun c => c.toNat - '0'.toNat))

/-- The record the specification's Builder makes of one line: fields 1, 2 and
5 of the line split on spaces, `none` for a line with fewer than 5 fields. -/
def record_of_line (line : CStr) : Option mount_info :=
  match split_tokens [' '] line with
  | t1 :: t2 :: _ :: _ :: t5 :: _ =>
    some ⟨t5, unsigned_of_int (atoi t1), unsigned_of_int (atoi t2)⟩
  | _ => none

/-- The records the token loop stores for the tokens still to come, when
`token_idx` tokens of the line were read before them. -/
def emitted : Nat → Nat → Nat → List CStr → List mount_info
  | _, _, _, [] => []
  | token_idx, mntid, parent_mntid, token :: rest =>
    let token_idx := token_idx + 1
    let mntid := if token_idx = 1 then unsigned_of_int (atoi token) else mntid
    let parent_mntid := if token_idx = 2 then unsigned_of_int (atoi token) else parent_mntid
    if token_idx ≠ 5 then emitted token_idx mntid parent_mntid rest
    else ⟨token, mntid, parent_mntid⟩ :: emitted token_idx mntid parent_mntid rest

/-- The table of `parse_mountinfo` holds the records `recs` and is zeroed
behind them, with room for the next record and the final zero element. -/
def table_holds (st : mnt_table_state) (recs : List mount_info) : Prop :=
  st.table_sz = st.nr_elem + 1 ∧ st.table_idx = recs.length ∧ recs.length < st.nr_elem ∧
    st.mnt_table = recs.map some ++ List.replicate (st.nr_elem + 1 - recs.length) none

/-- An environment in which the bundle's `config.json` cannot be opened and
the static configuration file does not exist; the state on stdin names the
container, a process and the bundle. -/
def sys_bundle_unreadable : Sys where
  stdin_state := some (some ⟨some "0123456789abcdef".toList, some 4242, some "/run/bundle".toList, none⟩)
  bundle_config := fun _ => .open_failed
  mountconf := .enoent
  realpath := fun p => some p
  open_ns := true
  setns := true
  chdir := true
  mountinfo := some []
  umount2 := fun _ _ => 0

/-- The lookups of the ancestor climb: the candidate `str` and the `suffix`
of every round of the `do ... while (1)` loop of
`map_mount_host_to_container`, when no round ends the loop with an error. -/
def climb_lookups (host_mnt : CStr) : Nat → CStr → Option CStr →
    Outcome (List (CStr × Option CStr))
  | 0, _, _ => .nofuel
  | fuel + 1, str, suffix =>
    if str = ['/'] then .ret [(str, suffix)]
    else
      let str1 := dirname str
      let suffix1 := if str1 = ['/'] then host_mnt else host_mnt.drop str1.length
      match climb_lookups host_mnt fuel str1 (some suffix1) with
      | .ret l => .ret ((str, suffix) :: l)
      | .overflow => .overflow
      | .nofuel => .nofuel

/-- The calls of `map_one_entry` for a list of lookups, in order: a negative
return value ends the run and clears the array, as in the loop of
`map_mount_host_to_container`. -/
def run_lookups (config_mounts : List config_mount_info) (max_mapped : Nat) :
    List (CStr × Option CStr) → List CStr → Outcome (Int × List CStr)
  | [], cont_mnt => .ret (int_of_unsigned cont_mnt.length, cont_mnt)
  | (str, suffix) :: rest, cont_mnt =>
    match map_one_entry config_mounts str cont_mnt max_mapped suffix with
    | .ret (ret, cont_mnt1) =>
      if ret < 0 then .ret (ret, []) else run_lookups config_mounts max_mapped rest cont_mnt1
    | .overflow => .overflow
    | .nofuel => .nofuel

/-- The lookup the specification's climb makes at the candidate that keeps
the first `i` components of the canonical host path: no suffix at the host
path itself, the whole host path at `"/"`, else the host path with the
candidate's prefix removed. -/
def lookup_at (comps : List CStr) (i : Nat) : CStr × Option CStr :=
  (abs_path (comps.take i),
    if i = comps.length then none
    else if i = 0 then some (abs_path comps)
    else some ((abs_path comps).drop (abs_path (comps.take i)).length))

/-- The lookups at the candidates with `i`, `i - 1`, ..., `0` components. -/
def lookups_from (comps : List CStr) : Nat → List (CStr × Option CStr)
  | 0 => [lookup_at comps 0]
  | i + 1 => lookup_at comps (i + 1) :: lookups_from comps i

/-- The model of `dirname` on the paths of glibc's `tst-dirname.c`. -/
theorem dirname_glibc_vectors :
    dirname "/usr/lib".toList = "/usr".toList ∧ dirname "/usr/".toList = "/".toList ∧
      dirname "usr".toList = ".".toList ∧ dirname "usr/".toList = ".".toList ∧
      dirname "/usr".toList = "/".toList ∧ dirname "/".toList = "/".toList ∧
      dirname "//".toList = "//".toList ∧ dirname "///".toList = "/".toList ∧
      dirname "//usr".toList = "//".toList ∧ dirname "///usr".toList = "/".toList ∧
      dirname "/usr//lib".toList = "/usr".toList ∧ dirname "/usr/lib/".toList = "/usr".toList ∧
      dirname ".".toList = ".".toList ∧ dirname "".toList = ".".toList := by
  decide

theorem join_components_append (a b : List CStr) :
    join_components (a ++ b) = join_components a ++ join_components b := by
  induction a with
  | nil => rfl
  | cons c cs ih => simp [join_components, ih]

theorem abs_path_snoc (comps : List CStr) (w : CStr) :
    abs_path (comps ++ [w]) = join_components comps ++ '/' :: w := by
  simp [abs_path, join_components_append, join_components]

theorem getElem?_append_add {α : Type} (P l : List α) (k : Nat) :
    (P ++ l)[P.length + k]? = l[k]? := by
  rw [List.getElem?_append_right (by omega)]
  congr 1
  omega

theorem memrchr_after_slash (P w : CStr) (hw : '/' ∉ w) :
    ∀ k, k ≤ w.length → memrchr (P ++ '/' :: w) '/' (P.length + 1 + k) = some P.length := by
  intro k
  induction k with
  | zero =>
    intro _
    have h0 : (P ++ '/' :: w)[P.length]? = some '/' := by
      have := getElem?_append_add P ('/' :: w) 0
      simpa using this
    show memrchr (P ++ '/' :: w) '/' (P.length + 1) = some P.length
    rw [memrchr, if_pos h0]
  | succ k ih =>
    intro hk
    have hlt : k < w.length := hk
    have hidx : (P ++ '/' :: w)[P.length + 1 + k]? = w[k]? := by
      have := getElem?_append_add P ('/' :: w) (k + 1)
      rw [show P.length + 1 + k = P.length + (k + 1) by omega, this]
      simp
    have hne : w[k]? ≠ some '/' := by
      rw [List.getElem?_eq_getElem hlt]
      intro h
      apply hw
      have hm := List.getElem_mem hlt
      rw [Option.some.inj h] at hm
      exact hm
    rw [show P.length + 1 + (k + 1) = (P.length + 1 + k) + 1 from rfl, memrchr, hidx, if_neg hne]
    exact ih (Nat.le_of_lt hlt)

theorem dirname_of_last_slash (path : CStr) (ls : Nat)
    (h1 : memrchr path '/' path.length = some ls) (h2 : ls + 1 ≠ path.length) :
    dirname path = path.take (if back_over_slashes path ls = 0 then (if ls = 1 then 2 else 1)
      else back_over_slashes path ls) := by
  unfold dirname
  simp [h1, h2]

theorem join_components_last (comps : List CStr) (hne : comps ≠ [])
    (hcs : ∀ x ∈ comps, is_component x) :
    ∃ Q x, join_components comps = Q ++ [x] ∧ x ≠ '/' := by
  obtain ⟨cs, w, rfl⟩ : ∃ cs w, comps = cs ++ [w] :=
    ⟨comps.dropLast, comps.getLast hne, (List.dropLast_append_getLast hne).symm⟩
  have hw : is_component w := hcs w (by simp)
  obtain ⟨w1, x, rfl⟩ : ∃ w1 x, w = w1 ++ [x] :=
    ⟨w.dropLast, w.getLast hw.1, (List.dropLast_append_getLast hw.1).symm⟩
  refine ⟨join_components cs ++ '/' :: w1, x, ?_, ?_⟩
  · simp [join_components_append, join_components]
  · intro h
    exact hw.2 (by simp [h])

theorem dirname_abs_path_snoc (comps : List CStr) (w : CStr)
    (hcs : ∀ x ∈ comps, is_component x) (hw : is_component w) :
    dirname (abs_path (comps ++ [w])) = abs_path comps := by
  rw [abs_path_snoc]
  have hlen : 1 ≤ w.length := by
    rcases w with _ | ⟨a, t⟩
    · exact absurd rfl hw.1
    · simp
  have h1 : memrchr (join_components comps ++ '/' :: w) '/'
      (join_components comps ++ '/' :: w).length = some (join_components comps).length := by
    have := memrchr_after_slash (join_components comps) w hw.2 w.length (le_refl _)
    rw [List.length_append, List.length_cons]
    rw [show (join_components comps).length + (w.length + 1)
      = (join_components comps).length + 1 + w.length by omega]
    exact this
  rw [dirname_of_last_slash _ _ h1 (by rw [List.length_append, List.length_cons]; omega)]
  by_cases hne : comps = []
  · subst hne
    simp [join_components, back_over_slashes, abs_path]
  · obtain ⟨Q, x, hQ, hx⟩ := join_components_last comps hne hcs
    have hb : back_over_slashes (join_components comps ++ '/' :: w) (join_components comps).length
        = (join_components comps).length := by
      rw [hQ]
      have hi : (Q ++ [x] ++ '/' :: w)[Q.length]? = some x := by
        have := getElem?_append_add Q ([x] ++ '/' :: w) 0
        simpa using this
      rw [show (Q ++ [x]).length = Q.length + 1 by simp, back_over_slashes, hi]
      simp [hx]
    rw [hb]
    have hpos : (join_components comps).length ≠ 0 := by rw [hQ]; simp
    simp [hpos, abs_path, hne]

/-! ## PathMapper on canonical host paths -/

theorem map_one_entry_cons (cm : config_mount_info) (rest : List config_mount_info)
    (host_mnt : CStr) (cont : List CStr) (max_mapped : Nat) (suffix : Option CStr) :
    map_one_entry (cm :: rest) host_mnt cont max_mapped suffix =
      if host_mnt ≠ cm.source then map_one_entry rest host_mnt cont max_mapped suffix
      else if cm.destination.length + (suffix.getD []).length + 1 > PATH_MAX then .overflow
      else if cont.length ≥ max_mapped then .ret (-1, cont)
      else map_one_entry rest host_mnt (cont ++ [cm.destination ++ suffix.getD []])
        max_mapped suffix := by
  cases suffix <;> rfl

theorem map_one_entry_ok (str : CStr) (max_mapped : Nat) (suffix : Option CStr) :
    ∀ (cfg : List config_mount_info) (cont : List CStr),
      (∀ e ∈ cfg, e.source = str → e.destination.length + (suffix.getD []).length + 1 ≤ PATH_MAX) →
      cont.length + cfg.countP (fun e => e.source = str) ≤ max_mapped →
      map_one_entry cfg str cont max_mapped suffix
        = .ret (0, cont ++ (cfg.filter (fun e => e.source = str)).map
            (fun e => e.destination ++ suffix.getD [])) := by
  intro cfg
  induction cfg with
  | nil => intro cont _ _; simp [map_one_entry]
  | cons cm rest ih =>
    intro cont hfit hcap
    by_cases h : cm.source = str
    · have hfit1 := hfit cm (by simp) h
      have hcap1 : cont.length + 1 + rest.countP (fun e => e.source = str) ≤ max_mapped := by
        simp [List.countP_cons, h] at hcap; omega
      have hlt : ¬ cont.length ≥ max_mapped := by omega
      rw [map_one_entry_cons, if_neg (by simp [h]), if_neg (by omega), if_neg hlt]
      rw [ih _ (fun e he => hfit e (by simp [he])) (by simpa using hcap1)]
      simp [List.filter_cons, h]
    · have hcap1 : cont.length + rest.countP (fun e => e.source = str) ≤ max_mapped := by
        simp [List.countP_cons, h] at hcap; omega
      rw [map_one_entry_cons, if_pos (fun hh => h hh.symm)]
      rw [ih _ (fun e he => hfit e (by simp [he])) hcap1]
      simp [List.filter_cons, h]

theorem abs_path_eq_root (comps : List CStr) (hcs : ∀ x ∈ comps, is_component x) :
    abs_path comps = ['/'] ↔ comps = [] := by
  constructor
  · intro h
    rcases comps with _ | ⟨w, cs⟩
    · rfl
    · exfalso
      have hw : is_component w := hcs w (by simp)
      rcases w with _ | ⟨a, t⟩
      · exact hw.1 rfl
      · simp [abs_path, join_components] at h
  · rintro rfl
    rfl

theorem take_succ_eq_snoc {α : Type} (l : List α) (i : Nat) (h : i < l.length) :
    l.take (i + 1) = l.take i ++ [l.get ⟨i, h⟩] := by
  rw [List.take_succ, List.getElem?_eq_getElem h]
  rfl

theorem mappings_at_length (cfg : List config_mount_info) (comps : List CStr) (i : Nat) :
    (mappings_at cfg comps i).length
      = cfg.countP (fun e => e.source = abs_path (comps.take i)) := by
  simp [mappings_at, List.countP_eq_length_filter]

theorem mappings_from_length (cfg : List config_mount_info) (comps : List CStr) (i : Nat) :
    (mappings_from cfg comps i).length = matches_upto cfg comps i := by
  induction i with
  | zero => simp [mappings_from, matches_upto, mappings_at_length]
  | succ i ih => simp [mappings_from, matches_upto, mappings_at_length, ih]

theorem map_loop_canonical (cfg : List config_mount_info) (comps : List CStr)
    (hcs : ∀ x ∈ comps, is_component x) (max_mapped : Nat) :
    ∀ (i fuel : Nat) (suffix : Option CStr) (cont : List CStr),
      i ≤ comps.length → i < fuel →
      suffix.getD [] = join_components (comps.drop i) →
      fits_path_max cfg comps i →
      cont.length + matches_upto cfg comps i ≤ max_mapped →
      map_loop cfg (abs_path comps) max_mapped fuel (abs_path (comps.take i)) suffix cont
        = .ret (int_of_unsigned (cont ++ mappings_from cfg comps i).length,
            cont ++ mappings_from cfg comps i) := by
  intro i
  induction i with
  | zero =>
    intro fuel suffix cont _ hfuel hsuf hfit hcap
    obtain ⟨f, rfl⟩ : ∃ f, fuel = f + 1 := ⟨fuel - 1, by omega⟩
    have h1 := map_one_entry_ok (abs_path (comps.take 0)) max_mapped suffix cfg cont
      (fun e he hs => by rw [hsuf]; exact hfit 0 (le_refl _) e he hs)
      (by simpa [matches_upto] using hcap)
    rw [map_loop, h1]
    simp [mappings_from, mappings_at, hsuf, abs_path]
  | succ i ih =>
    intro fuel suffix cont hi hfuel hsuf hfit hcap
    obtain ⟨f, rfl⟩ : ∃ f, fuel = f + 1 := ⟨fuel - 1, by omega⟩
    have hlt : i < comps.length := hi
    have hne : comps ≠ [] := by
      intro h; rw [h] at hlt; simp at hlt
    have h1 := map_one_entry_ok (abs_path (comps.take (i + 1))) max_mapped suffix cfg cont
      (fun e he hs => by rw [hsuf]; exact hfit (i + 1) (le_refl _) e he hs)
      (by simp only [matches_upto] at hcap; omega)
    have htake := take_succ_eq_snoc comps i hlt
    have hw : is_component (comps.get ⟨i, hlt⟩) := hcs _ (List.get_mem _ _ _)
    have hcs1 : ∀ x ∈ comps.take i, is_component x := fun x hx => hcs x (List.mem_of_mem_take hx)
    have hnroot : abs_path (comps.take (i + 1)) ≠ ['/'] := by
      intro h
      have := (abs_path_eq_root _ (fun x hx => hcs x (List.mem_of_mem_take hx))).1 h
      exact hne (by simpa using this)
    have hdir : dirname (abs_path (comps.take (i + 1))) = abs_path (comps.take i) := by
      rw [htake]; exact dirname_abs_path_snoc _ _ hcs1 hw
    have hsuf1 : (if abs_path (comps.take i) = ['/'] then abs_path comps
        else (abs_path comps).drop (abs_path (comps.take i)).length)
        = join_components (comps.drop i) := by
      by_cases h0 : comps.take i = []
      · have hi0 : i = 0 := by
          rcases i with _ | k
          · rfl
          · exfalso
            exact hne (by simpa using h0)
        subst hi0
        simp [abs_path, hne]
      · rw [if_neg (fun h => h0 ((abs_path_eq_root _ hcs1).1 h))]
        have hsplit : abs_path comps
            = abs_path (comps.take i) ++ join_components (comps.drop i) := by
          conv_lhs => rw [← List.take_append_drop i comps]
          simp only [abs_path, h0, if_false]
          rw [if_neg (by simp [hne]), join_components_append]
        rw [hsplit, List.drop_left]
    rw [map_loop, h1]
    simp only []
    rw [if_neg (by decide), if_neg hnroot, hdir, hsuf1]
    have := ih f (some (join_components (comps.drop i)))
      (cont ++ (cfg.filter (fun e => e.source = abs_path (comps.take (i + 1)))).map
        (fun e => e.destination ++ suffix.getD []))
      (by omega) (by omega) rfl (fun j hj => hfit j (by omega))
      (by
        simp only [matches_upto] at hcap
        simp [List.countP_eq_length_filter] at hcap ⊢
        omega)
    rw [this]
    simp [mappings_from, mappings_at, hsuf]

theorem abs_path_take_succ (comps : List CStr) (hcs : ∀ x ∈ comps, is_component x) (i : Nat)
    (hlt : i < comps.length) :
    abs_path (comps.take (i + 1)) ≠ ['/'] ∧
      dirname (abs_path (comps.take (i + 1))) = abs_path (comps.take i) := by
  have hne : comps ≠ [] := by
    intro h; rw [h] at hlt; simp at hlt
  have htake := take_succ_eq_snoc comps i hlt
  have hw : is_component (comps.get ⟨i, hlt⟩) := hcs _ (List.get_mem _ _ _)
  have hcs1 : ∀ x ∈ comps.take i, is_component x := fun x hx => hcs x (List.mem_of_mem_take hx)
  constructor
  · intro h
    have := (abs_path_eq_root _ (fun x hx => hcs x (List.mem_of_mem_take hx))).1 h
    exact hne (by simpa using this)
  · rw [htake]; exact dirname_abs_path_snoc _ _ hcs1 hw

theorem int_of_unsigned_of_lt (n : Nat) (h : n < 2 ^ 31) : int_of_unsigned n = (n : Int) := by
  unfold int_of_unsigned
  have h1 : n % 2 ^ 32 = n := Nat.mod_eq_of_lt (by omega)
  rw [h1, if_pos h]

theorem int_of_unsigned_eq_zero (n : Nat) (h : n < 2 ^ 32) (h0 : int_of_unsigned n = 0) :
    n = 0 := by
  unfold int_of_unsigned at h0
  have h1 : n % 2 ^ 32 = n := Nat.mod_eq_of_lt h
  rw [h1] at h0
  split at h0
  · exact_mod_cast h0
  · omega

theorem map_one_entry_ret (str : CStr) (max_mapped : Nat) (suffix : Option CStr) :
    ∀ (cfg : List config_mount_info) (cont : List CStr) (r : Int) (cont1 : List CStr),
      map_one_entry cfg str cont max_mapped suffix = .ret (r, cont1) →
      cont.length ≤ max_mapped →
      cont1.length ≤ max_mapped ∧ cont.length ≤ cont1.length ∧
        ((r = 0 ∧ (cont1.length = cont.length → ∀ e ∈ cfg, e.source ≠ str)) ∨ r = -1) := by
  intro cfg
  induction cfg with
  | nil =>
    intro cont r cont1 h hle
    simp only [map_one_entry, Outcome.ret.injEq, Prod.mk.injEq] at h
    obtain ⟨rfl, rfl⟩ := h
    simp [hle]
  | cons cm rest ih =>
    intro cont r cont1 h hle
    rw [map_one_entry_cons] at h
    by_cases hs : str = cm.source
    · rw [if_neg (by simp [hs])] at h
      split at h
      · exact absurd h (by simp)
      · split at h
        · simp only [Outcome.ret.injEq, Prod.mk.injEq] at h
          obtain ⟨rfl, rfl⟩ := h
          simp [hle]
        · rename_i hlt
          have := ih _ r cont1 h (by simp; omega)
          simp only [List.length_append, List.length_singleton] at this
          refine ⟨this.1, by omega, ?_⟩
          rcases this.2.2 with ⟨h0, _⟩ | h1
          · left
            refine ⟨h0, ?_⟩
            intro hlen
            omega
          · right; exact h1
    · rw [if_pos hs] at h
      have := ih cont r cont1 h hle
      refine ⟨this.1, this.2.1, ?_⟩
      rcases this.2.2 with ⟨h0, hn⟩ | h1
      · left
        refine ⟨h0, fun hlen e he => ?_⟩
        rcases List.mem_cons.1 he with rfl | he1
        · exact fun hh => hs hh.symm
        · exact hn hlen e he1
      · right; exact h1

theorem map_loop_zero (cfg : List config_mount_info) (comps : List CStr)
    (hcs : ∀ x ∈ comps, is_component x) (max_mapped : Nat) (hmax : max_mapped < 2 ^ 32) :
    ∀ (i fuel : Nat) (suffix : Option CStr) (cont out : List CStr),
      i ≤ comps.length → cont.length ≤ max_mapped →
      map_loop cfg (abs_path comps) max_mapped fuel (abs_path (comps.take i)) suffix cont
        = .ret (0, out) →
      cont = [] ∧ out = [] ∧ ∀ j, j ≤ i → ∀ e ∈ cfg, e.source ≠ abs_path (comps.take j) := by
  intro i
  induction i with
  | zero =>
    intro fuel suffix cont out _ hle h
    rcases fuel with _ | f
    · simp [map_loop] at h
    · rw [map_loop] at h
      split at h
      · rename_i r c1 hm
        have hf := map_one_entry_ret _ _ _ _ _ _ _ hm hle
        split at h
        · rename_i hneg
          simp only [Outcome.ret.injEq, Prod.mk.injEq] at h
          omega
        · rw [if_pos (by simp [abs_path])] at h
          simp only [Outcome.ret.injEq, Prod.mk.injEq] at h
          obtain ⟨hz, rfl⟩ := h
          have hc1 : c1.length = 0 := int_of_unsigned_eq_zero _ (by omega) hz
          have hc : cont.length = 0 := by omega
          refine ⟨List.length_eq_zero.1 hc, List.length_eq_zero.1 hc1, ?_⟩
          intro j hj e he
          have hj0 : j = 0 := by omega
          subst hj0
          rcases hf.2.2 with ⟨_, hn⟩ | h1
          · exact hn (by omega) e he
          · rename_i hnn; omega
      · simp at h
      · simp at h
  | succ i ih =>
    intro fuel suffix cont out hi hle h
    have hstep := abs_path_take_succ comps hcs i hi
    rcases fuel with _ | f
    · simp [map_loop] at h
    · rw [map_loop] at h
      split at h
      · rename_i r c1 hm
        have hf := map_one_entry_ret _ _ _ _ _ _ _ hm hle
        split at h
        · rename_i hneg
          simp only [Outcome.ret.injEq, Prod.mk.injEq] at h
          omega
        · rename_i hnn
          rw [if_neg hstep.1] at h
          simp only [hstep.2] at h
          have := ih f _ c1 out (by omega) hf.1 h
          obtain ⟨hc1, hout, hrest⟩ := this
          have hc1l : c1.length = 0 := by rw [hc1]; rfl
          have hc : cont.length = 0 := by omega
          refine ⟨List.length_eq_zero.1 hc, hout, ?_⟩
          intro j hj e he
          rcases Nat.lt_or_ge j (i + 1) with hlt | hge
          · exact hrest j (by omega) e he
          · have hj1 : j = i + 1 := by omega
            subst hj1
            rcases hf.2.2 with ⟨_, hn⟩ | h1
            · exact hn (by omega) e he
            · omega
      · simp at h
      · simp at h

theorem mappings_from_nil_of_no_match (cfg : List config_mount_info) (comps : List CStr) (i : Nat)
    (h : ∀ j, j ≤ i → ∀ e ∈ cfg, e.source ≠ abs_path (comps.take j)) :
    mappings_from cfg comps i = [] := by
  induction i with
  | zero =>
    simp only [mappings_from, mappings_at, List.map_eq_nil_iff, List.filter_eq_nil_iff]
    intro e he
    simpa using h 0 (le_refl _) e he
  | succ i ih =>
    simp only [mappings_from, mappings_at, List.append_eq_nil, List.map_eq_nil_iff,
      List.filter_eq_nil_iff]
    refine ⟨?_, ih (fun j hj => h j (by omega))⟩
    intro e he
    simpa using h (i + 1) (le_refl _) e he

theorem abs_path_take_length_lt (comps : List CStr) (hcs : ∀ x ∈ comps, is_component x) :
    ∀ (k j : Nat), j < k → k ≤ comps.length →
      (abs_path (comps.take j)).length < (abs_path (comps.take k)).length := by
  have step : ∀ j, j < comps.length →
      (abs_path (comps.take j)).length < (abs_path (comps.take (j + 1))).length := by
    intro j hj
    rw [take_succ_eq_snoc comps j hj, abs_path_snoc]
    have hw : is_component (comps.get ⟨j, hj⟩) := hcs _ (List.get_mem _ _ _)
    have hlen : 1 ≤ (comps.get ⟨j, hj⟩).length := by
      rcases hc : comps.get ⟨j, hj⟩ with _ | ⟨a, t⟩
      · exact absurd hc hw.1
      · simp
    simp only [abs_path, List.length_append, List.length_cons]
    simp only [List.get_eq_getElem] at hlen ⊢
    split
    · simp only [List.length_singleton]; omega
    · omega
  intro k
  induction k with
  | zero => intro j hj; omega
  | succ k ih =>
    intro j hj hk
    rcases Nat.lt_or_ge j k with h | h
    · exact Nat.lt_trans (ih j h (by omega)) (step k hk)
    · have : j = k := by omega
      subst this
      exact step j hk

theorem abs_path_take_inj (comps : List CStr) (hcs : ∀ x ∈ comps, is_component x) (j k : Nat)
    (hj : j ≤ comps.length) (hk : k ≤ comps.length)
    (h : abs_path (comps.take j) = abs_path (comps.take k)) : j = k := by
  rcases Nat.lt_trichotomy j k with hlt | heq | hgt
  · have := abs_path_take_length_lt comps hcs k j hlt hk
    rw [h] at this; omega
  · exact heq
  · have := abs_path_take_length_lt comps hcs j k hgt hj
    rw [h] at this; omega

theorem mappings_from_single (comps names : List CStr) (D : CStr)
    (hall : ∀ x ∈ comps ++ names, is_component x) :
    ∀ i, i ≤ (comps ++ names).length →
      mappings_from [⟨abs_path comps, D⟩] (comps ++ names) i
        = if comps.length ≤ i then [D ++ join_components names] else [] := by
  have hsrc : abs_path comps = abs_path ((comps ++ names).take comps.length) := by simp
  have hat : ∀ j, j ≤ (comps ++ names).length →
      mappings_at [⟨abs_path comps, D⟩] (comps ++ names) j
        = if j = comps.length then [D ++ join_components names] else [] := by
    intro j hj
    by_cases h : j = comps.length
    · subst h
      simp [mappings_at]
    · have hne : abs_path comps ≠ abs_path ((comps ++ names).take j) := by
        intro hh
        rw [hsrc] at hh
        exact h (abs_path_take_inj _ hall _ _ (by simp) hj hh).symm
      simp [mappings_at, h, hne]
  intro i
  induction i with
  | zero =>
    intro hi
    rw [mappings_from, hat 0 hi]
    by_cases h : comps.length = 0
    · simp [h]
    · rw [if_neg (fun hh => h hh.symm), if_neg (by omega)]
  | succ i ih =>
    intro hi
    rw [mappings_from, hat (i + 1) hi, ih (by omega)]
    by_cases h1 : i + 1 = comps.length
    · rw [if_pos h1, if_neg (by omega), if_pos (by omega)]; rfl
    · rw [if_neg h1]
      by_cases h2 : comps.length ≤ i
      · rw [if_pos h2, if_pos (by omega)]; rfl
      · rw [if_neg h2, if_neg (by omega)]; rfl

theorem single_entry_mapping (comps names : List CStr) (D : CStr) (max_mapped fuel : Nat)
    (hall : ∀ x ∈ comps ++ names, is_component x)
    (hmax : 1 ≤ max_mapped) (hfuel : (comps ++ names).length < fuel)
    (hfit : D.length + (join_components names).length + 1 ≤ PATH_MAX) :
    map_mount_host_to_container fuel [⟨abs_path comps, D⟩] (abs_path (comps ++ names)) max_mapped
      = .ret (1, [D ++ join_components names]) := by
  have hsrc : abs_path comps = abs_path ((comps ++ names).take comps.length) := by simp
  have hfits : fits_path_max [⟨abs_path comps, D⟩] (comps ++ names) (comps ++ names).length := by
    intro j hj e he hs
    simp only [List.mem_singleton] at he
    subst he
    simp only at hs
    rw [hsrc] at hs
    have hjm := abs_path_take_inj _ hall _ _ (by simp) hj hs
    subst hjm
    simpa using hfit
  have hmf := mappings_from_single comps names D hall (comps ++ names).length (le_refl _)
  rw [if_pos (by simp)] at hmf
  have hcap : ([] : List CStr).length
      + matches_upto [⟨abs_path comps, D⟩] (comps ++ names) (comps ++ names).length
      ≤ max_mapped := by
    rw [← mappings_from_length, hmf]; simpa using hmax
  have := map_loop_canonical [⟨abs_path comps, D⟩] (comps ++ names) hall max_mapped
    (comps ++ names).length fuel none [] (le_refl _) hfuel (by simp [join_components])
    hfits hcap
  rw [List.take_length] at this
  rw [map_mount_host_to_container, this, hmf]
  rfl

theorem abs_path_append (comps names : List CStr) (h : comps ≠ []) :
    abs_path (comps ++ names) = abs_path comps ++ join_components names := by
  simp [abs_path, h, join_components_append]

theorem mappings_from_contains (cfg : List config_mount_info) (comps : List CStr) :
    ∀ i j, j ≤ i → ∃ pre post,
      mappings_from cfg comps i = pre ++ mappings_at cfg comps j ++ post := by
  intro i
  induction i with
  | zero =>
    intro j hj
    have : j = 0 := by omega
    subst this
    exact ⟨[], [], by simp [mappings_from]⟩
  | succ i ih =>
    intro j hj
    rcases Nat.lt_or_ge j (i + 1) with h | h
    · obtain ⟨pre, post, hpp⟩ := ih j (by omega)
      exact ⟨mappings_at cfg comps (i + 1) ++ pre, post, by simp [mappings_from, hpp]⟩
    · have : j = i + 1 := by omega
      subst this
      exact ⟨[], mappings_from cfg comps i, by simp [mappings_from]⟩

theorem map_overflow_first_entry (S D : CStr) (rest : List config_mount_info)
    (max_mapped fuel : Nat) (h : D.length + 1 > PATH_MAX) :
    map_mount_host_to_container (fuel + 1) (⟨S, D⟩ :: rest) S max_mapped = Outcome.overflow := by
  rw [map_mount_host_to_container, map_loop, map_one_entry_cons, if_neg (by simp)]
  rw [if_pos (by simpa using h)]

theorem map_overflow_second_entry (S D1 D2 : CStr) (max_mapped fuel : Nat)
    (h1 : D1.length + 1 ≤ PATH_MAX) (h2 : D2.length + 1 > PATH_MAX) (hmax : 0 < max_mapped) :
    map_mount_host_to_container (fuel + 1) [⟨S, D1⟩, ⟨S, D2⟩] S max_mapped
      = Outcome.overflow := by
  rw [map_mount_host_to_container, map_loop, map_one_entry_cons, if_neg (by simp)]
  rw [if_neg (by simpa using h1), if_neg (by simp; omega)]
  rw [map_one_entry_cons, if_neg (by simp), if_pos (by simpa using h2)]

/-! ## Claims C1 to C3: PathMapper -/

/-- C1 (amended): for the config-mount list made of the single entry
`{source: S, destination: D}` with `S` canonical and absolute, and a cap of
at least one mapping: when `D` with its terminator fits the buffer of
`PATH_MAX` bytes, the mapper on host path `S` returns exactly one mapping,
`D`; and when `S` is not `"/"` and `D` followed by the components
`"/x/y..."` fits that buffer, on host path `S + "/x/y..."` it returns
exactly one mapping, `D + "/x/y..."`. -/
theorem map_single_entry (comps : List CStr) (D : CStr) (max_mapped fuel : Nat)
    (hcs : ∀ x ∈ comps, is_component x) (hmax : 1 ≤ max_mapped) :
    (comps.length < fuel → D.length + 1 ≤ PATH_MAX →
      map_mount_host_to_container fuel [⟨abs_path comps, D⟩] (abs_path comps) max_mapped
        = .ret (1, [D])) ∧
    (∀ names : List CStr, names ≠ [] → (∀ x ∈ names, is_component x) → comps ≠ [] →
      comps.length + names.length < fuel →
      D.length + (join_components names).length + 1 ≤ PATH_MAX →
      map_mount_host_to_container fuel [⟨abs_path comps, D⟩]
        (abs_path comps ++ join_components names) max_mapped
        = .ret (1, [D ++ join_components names])) := by
  constructor
  · intro hfuel hfit
    have := single_entry_mapping comps [] D max_mapped fuel (by simpa using hcs) hmax
      (by simpa using hfuel) (by simpa [join_components] using hfit)
    simpa [join_components] using this
  · intro names _ hns hne hfuel hfit
    have hall : ∀ x ∈ comps ++ names, is_component x := by
      intro x hx
      rcases List.mem_append.1 hx with h | h
      · exact hcs x h
      · exact hns x h
    have := single_entry_mapping comps names D max_mapped fuel hall hmax
      (by simpa using hfuel) hfit
    rwa [abs_path_append comps names hne] at this

/-- Witness of C1: source `"/a"`, destination `"/d"`, host paths `"/a"` and
`"/a/x/y"`. -/
theorem map_single_entry_witness :
    map_mount_host_to_container 10 [⟨['/', 'a'], ['/', 'd']⟩] ['/', 'a'] 128
        = .ret (1, [['/', 'd']]) ∧
      map_mount_host_to_container 10 [⟨['/', 'a'], ['/', 'd']⟩] ['/', 'a', '/', 'x', '/', 'y'] 128
        = .ret (1, [['/', 'd', '/', 'x', '/', 'y']]) :=
  ⟨(map_single_entry [['a']] ['/', 'd'] 128 10 (by decide) (by decide)).1 (by decide) (by decide),
    (map_single_entry [['a']] ['/', 'd'] 128 10 (by decide) (by decide)).2 [['x'], ['y']]
      (by decide) (by decide) (by decide) (by decide) (by decide)⟩

/-- C1 as stated fails: with source `"/a"` and a destination of 4096
characters the mapper on host path `"/a"` does not return the destination;
`strcpy` writes past the buffer `path[PATH_MAX]`. -/
theorem map_single_entry_long_destination :
    map_mount_host_to_container 10 [⟨['/', 'a'], List.replicate 4096 'd'⟩] ['/', 'a'] 128
        = Outcome.overflow ∧
      map_mount_host_to_container 10 [⟨['/', 'a'], List.replicate 4096 'd'⟩] ['/', 'a'] 128
        ≠ Outcome.ret (1, [List.replicate 4096 'd']) := by
  have h := map_overflow_first_entry ['/', 'a'] (List.replicate 4096 'd') [] 128 9
    (by rw [List.length_replicate]; decide)
  exact ⟨h, by rw [h]; exact fun hh => Outcome.noConfusion hh⟩

/-- C2 (amended): for every config-mount list and canonical absolute host
path, when the total number of matches does not exceed the cap and every
mapped path fits the buffer of `PATH_MAX` bytes, the mapper returns the
number of matches and, for every candidate (the host path or one of its
ancestors), the destination plus residual suffix of every entry whose
source is that candidate, as one block in config-list order. -/
theorem map_returns_every_match (cfg : List config_mount_info) (comps : List CStr)
    (max_mapped fuel : Nat) (hcs : ∀ x ∈ comps, is_component x) (hfuel : comps.length < fuel)
    (hcap : matches_upto cfg comps comps.length ≤ max_mapped) (hmax : max_mapped < 2 ^ 31)
    (hfit : fits_path_max cfg comps comps.length) :
    ∃ out, map_mount_host_to_container fuel cfg (abs_path comps) max_mapped
        = .ret ((out.length : Int), out) ∧
      out.length = matches_upto cfg comps comps.length ∧
      ∀ j, j ≤ comps.length → ∃ pre post, out = pre ++
        (cfg.filter (fun e => e.source = abs_path (comps.take j))).map
          (fun e => e.destination ++ join_components (comps.drop j)) ++ post := by
  refine ⟨mappings_from cfg comps comps.length, ?_, mappings_from_length _ _ _, ?_⟩
  · have := map_loop_canonical cfg comps hcs max_mapped comps.length fuel none []
      (le_refl _) hfuel (by simp [join_components]) hfit (by simpa using hcap)
    rw [List.take_length] at this
    rw [map_mount_host_to_container, this]
    simp only [List.nil_append]
    rw [int_of_unsigned_of_lt _ (by rw [mappings_from_length]; omega)]
  · intro j hj
    exact mappings_from_contains cfg comps comps.length j hj

/-- Witness of C2: two entries with source `"/a"` and one with source `"/"`,
host path `"/a/x"`. -/
theorem map_returns_every_match_witness :
    ∃ out, map_mount_host_to_container 5
        [⟨['/', 'a'], ['/', 'd']⟩, ⟨['/'], ['/', 'r']⟩, ⟨['/', 'a'], ['/', 'e']⟩]
        (abs_path [['a'], ['x']]) 128 = .ret ((out.length : Int), out) ∧
      out.length = 3 ∧
      ∀ j, j ≤ 2 → ∃ pre post, out = pre ++
        (([⟨['/', 'a'], ['/', 'd']⟩, ⟨['/'], ['/', 'r']⟩, ⟨['/', 'a'], ['/', 'e']⟩] :
            List config_mount_info).filter
          (fun e => e.source = abs_path (([['a'], ['x']] : List CStr).take j))).map
          (fun e => e.destination ++ join_components (([['a'], ['x']] : List CStr).drop j))
          ++ post :=
  map_returns_every_match
    [⟨['/', 'a'], ['/', 'd']⟩, ⟨['/'], ['/', 'r']⟩, ⟨['/', 'a'], ['/', 'e']⟩] [['a'], ['x']] 128 5
    (by decide) (by decide) (by decide) (by decide) (by unfold fits_path_max; decide)

/-- C2 as stated fails: two entries share the source `"/a"`, the total of two
matches is below the cap, the second destination has 4096 characters; on
host path `"/a"` the mapper returns no mapping at all, it runs past the
buffer `path[PATH_MAX]` at the second entry. -/
theorem map_two_entries_long_destination :
    matches_upto [⟨['/', 'a'], ['/', 'd']⟩, ⟨['/', 'a'], List.replicate 4096 'e'⟩] [['a']] 1 = 2 ∧
      map_mount_host_to_container 10
        [⟨['/', 'a'], ['/', 'd']⟩, ⟨['/', 'a'], List.replicate 4096 'e'⟩] (abs_path [['a']]) 128
        = Outcome.overflow := by
  have hlen : (List.replicate 4096 'e').length + 1 > PATH_MAX := by
    rw [List.length_replicate]; decide
  generalize List.replicate 4096 'e' = D at hlen ⊢
  constructor
  · simp [matches_upto, abs_path, join_components]
  · exact map_overflow_second_entry ['/', 'a'] ['/', 'd'] D 128 9 (by decide) hlen (by decide)

/-- C3: for every config-mount list and canonical absolute host path `H`, the
mapper returns 0 if and only if no entry's source equals `H` or an ancestor
directory of `H` up to and including `"/"`; in that case the output array
holds no mapping. -/
theorem map_returns_zero_iff (cfg : List config_mount_info) (comps : List CStr)
    (max_mapped fuel : Nat) (hcs : ∀ x ∈ comps, is_component x) (hfuel : comps.length < fuel)
    (hmax : max_mapped < 2 ^ 32) :
    ((∃ out, map_mount_host_to_container fuel cfg (abs_path comps) max_mapped = .ret (0, out)) ↔
      ∀ j, j ≤ comps.length → ∀ e ∈ cfg, e.source ≠ abs_path (comps.take j)) ∧
    ((∀ j, j ≤ comps.length → ∀ e ∈ cfg, e.source ≠ abs_path (comps.take j)) →
      map_mount_host_to_container fuel cfg (abs_path comps) max_mapped = .ret (0, [])) := by
  have hback : (∀ j, j ≤ comps.length → ∀ e ∈ cfg, e.source ≠ abs_path (comps.take j)) →
      map_mount_host_to_container fuel cfg (abs_path comps) max_mapped = .ret (0, []) := by
    intro hno
    have hnil := mappings_from_nil_of_no_match cfg comps comps.length hno
    have hzero : matches_upto cfg comps comps.length = 0 := by
      rw [← mappings_from_length, hnil]; rfl
    have := map_loop_canonical cfg comps hcs max_mapped comps.length fuel none []
      (le_refl _) hfuel (by simp [join_components])
      (fun j hj e he hs => absurd hs (hno j hj e he)) (by simp [hzero])
    rw [List.take_length] at this
    rw [map_mount_host_to_container, this, hnil]
    rfl
  refine ⟨⟨?_, fun hno => ⟨[], hback hno⟩⟩, hback⟩
  rintro ⟨out, hout⟩
  rw [map_mount_host_to_container] at hout
  have := map_loop_zero cfg comps hcs max_mapped hmax comps.length fuel none [] out (le_refl _)
    (by simp) (by rw [List.take_length]; exact hout)
  exact this.2.2

/-- Witness of C3: no entry has source `"/a/x"`, `"/a"` or `"/"`. -/
theorem map_returns_zero_iff_witness :
    map_mount_host_to_container 5 [⟨['/', 'b'], ['/', 'd']⟩] (abs_path [['a'], ['x']]) 128
      = .ret (0, []) :=
  (map_returns_zero_iff [⟨['/', 'b'], ['/', 'd']⟩] [['a'], ['x']] 128 5
    (by decide) (by decide) (by decide)).2 (by decide)

/-! ## Claim C4: a failing `parseBundle` -/

theorem parseBundle_ret (sys : Sys) (node : StateJson) :
    ((parseBundle sys node).1 = 0 ∧ ∃ l, (parseBundle sys node).2.2 = some l) ∨
      ((parseBundle sys node).1 = EXIT_FAILURE ∧ (parseBundle sys node).2.2 = none) := by
  unfold parseBundle
  dsimp only
  repeat' (first
    | (right; exact ⟨rfl, rfl⟩)
    | (left; exact ⟨rfl, _, rfl⟩)
    | split)

/-- C4 (defect of the code): when the prestart phase is selected and
`parseBundle` fails, `parseBundle` returns `EXIT_FAILURE`, which is 1, so the
test `ret < 0` of `main` does not fire: `main` calls `prestart` (with an
empty mount list) and exits with 0 whenever `prestart` returns 0, as it
does when the static configuration file is absent. -/
theorem main_calls_prestart_after_bundle_failure (fuel : Nat) (sys : Sys) (argv : List CStr)
    (node : StateJson) (id : CStr) (pid : Int)
    (hstate : sys.stdin_state = some (some node)) (hid : node.id = some id)
    (hpid : node.pid = some pid)
    (hphase : (argv.length ≥ 2 ∧ argv[1]? = some "prestart".toList) ∨
      (argv.length = 1 ∧ int_of_unsigned (unsigned_of_int pid) ≠ 0))
    (hfail : (parseBundle sys node).1 ≠ 0) :
    (parseBundle sys node).1 = EXIT_FAILURE ∧
      (∀ run, prestart fuel sys (parseBundle sys node).2.1 [] = .ret run →
        main fuel sys argv
          = .ret ⟨if run.ret ≠ 0 then EXIT_FAILURE else EXIT_SUCCESS, some run⟩) ∧
      (sys.mountconf = ConfFile.enoent →
        main fuel sys argv = .ret ⟨EXIT_SUCCESS, some ⟨0, [], false, []⟩⟩) := by
  have hret := parseBundle_ret sys node
  rcases hret with ⟨h0, _⟩ | ⟨h1, hnone⟩
  · exact absurd h0 hfail
  · have hmain : ∀ run, prestart fuel sys (parseBundle sys node).2.1 [] = .ret run →
        main fuel sys argv
          = .ret ⟨if run.ret ≠ 0 then EXIT_FAILURE else EXIT_SUCCESS, some run⟩ := by
      intro run hrun
      unfold main
      simp only [hstate, hid, hpid]
      rw [if_pos hphase]
      rcases hpb : parseBundle sys node with ⟨ret, rootfs, mounts⟩
      rw [hpb] at h1 hnone hrun
      simp only at h1 hnone hrun
      subst h1 hnone
      simp only []
      rw [if_neg (by decide), hrun]
      by_cases hr : run.ret = 0
      · simp [hr]
      · simp [hr]
    refine ⟨h1, hmain, ?_⟩
    intro hconf
    have := hmain ⟨0, [], false, []⟩ (by unfold prestart; rw [hconf])
    simpa using this

/-- Witness of C4: `main` run with the argument `prestart` in an environment
where the bundle's `config.json` cannot be opened and the static
configuration file is absent exits with `EXIT_SUCCESS`, having called
`prestart`. -/
theorem main_calls_prestart_after_bundle_failure_witness :
    (parseBundle sys_bundle_unreadable
        ⟨some "0123456789abcdef".toList, some 4242, some "/run/bundle".toList, none⟩).1
        = EXIT_FAILURE ∧
      main 10 sys_bundle_unreadable ["oci-umount".toList, "prestart".toList]
        = .ret ⟨EXIT_SUCCESS, some ⟨0, [], false, []⟩⟩ :=
  have h := main_calls_prestart_after_bundle_failure 10 sys_bundle_unreadable
    ["oci-umount".toList, "prestart".toList]
    ⟨some "0123456789abcdef".toList, some 4242, some "/run/bundle".toList, none⟩
    "0123456789abcdef".toList 4242 rfl rfl rfl (Or.inl (by decide)) (by decide)
  ⟨h.1, h.2.2 rfl⟩

/-! ## Claims C5 to C7: UnmountExecutor -/

theorem strncmp_eq_iff (a b : CStr) : strncmp_eq a b a.length = a.isPrefixOf b := by
  unfold strncmp_eq
  rw [List.take_length]
  rw [Bool.eq_iff_iff]
  simp only [beq_iff_eq, List.isPrefixOf_iff_prefix]
  exact (List.prefix_iff_eq_take).symm

theorem int_of_unsigned_lt (n : Nat) : int_of_unsigned n < 2 ^ 31 := by
  unfold int_of_unsigned
  have := Nat.mod_lt n (show 2 ^ 32 > 0 by decide)
  split <;> omega

theorem find_mntid_lt (path : CStr) (tbl : List mount_info) : find_mntid path tbl < 2 ^ 31 := by
  induction tbl with
  | nil => simp [find_mntid]
  | cons m rest ih =>
    rw [find_mntid]
    split
    · exact int_of_unsigned_lt _
    · exact ih

theorem parent_mntid_lt (tbl : List mount_info) :
    ∀ (fuel : Nat) (dname : CStr) (m : Int), parent_mntid tbl fuel dname = .ret m → m < 2 ^ 31 := by
  intro fuel
  induction fuel with
  | zero => intro dname m h; simp [parent_mntid] at h
  | succ f ih =>
    intro dname m h
    rw [parent_mntid] at h
    dsimp only at h
    split at h
    · simp only [Outcome.ret.injEq] at h
      rw [← h]; exact find_mntid_lt _ _
    · split at h
      · simp only [Outcome.ret.injEq] at h
        omega
      · split at h
        · simp only [Outcome.ret.injEq] at h
          omega
        · exact ih _ _ h

theorem unsigned_of_int_eq (m : Int) (h0 : 0 ≤ m) (h1 : m < 2 ^ 31) (n : Nat) :
    n = unsigned_of_int m ↔ (n : Int) = m := by
  unfold unsigned_of_int
  have : m % 2 ^ 32 = m := Int.emod_eq_of_lt h0 (by omega)
  rw [this]
  omega

theorem submount_loop_trace (umount2 : Umount2) (umount_path : CStr) (m : Int)
    (h0 : 0 ≤ m) (h1 : m < 2 ^ 31) :
    ∀ (l : List mount_info) (tr : Trace), ∃ tr1,
      submount_loop umount2 umount_path m l tr = tr ++ tr1 ∧
      tr1.map Prod.fst = (l.filter (fun r =>
        decide ((r.parent_mntid : Int) = m) && umount_path.isPrefixOf r.destination)).map
          (fun r => r.destination) := by
  intro l
  induction l with
  | nil => intro tr; exact ⟨[], by simp [submount_loop]⟩
  | cons r rest ih =>
    intro tr
    rw [submount_loop]
    by_cases hp : r.parent_mntid = unsigned_of_int m
    · have hp1 : (r.parent_mntid : Int) = m := (unsigned_of_int_eq m h0 h1 _).1 hp
      rw [if_neg (by simp [hp])]
      by_cases hs : umount_path.isPrefixOf r.destination = true
      · rw [if_neg (by rw [strncmp_eq_iff, hs]; simp)]
        obtain ⟨tr1, h, hm⟩ := ih (tr ++ [(r.destination, umount2 tr r.destination)])
        refine ⟨(r.destination, umount2 tr r.destination) :: tr1, ?_, ?_⟩
        · rw [h]; simp
        · simp [List.filter_cons, hp1, hs, hm]
      · simp only [Bool.not_eq_true] at hs
        rw [if_pos (by rw [strncmp_eq_iff, hs]; rfl)]
        obtain ⟨tr1, h, hm⟩ := ih tr
        refine ⟨tr1, h, ?_⟩
        rw [List.filter_cons, hs]
        simpa using hm
    · have hp1 : ¬ (r.parent_mntid : Int) = m := fun hh => hp ((unsigned_of_int_eq m h0 h1 _).2 hh)
      rw [if_pos hp]
      obtain ⟨tr1, h, hm⟩ := ih tr
      refine ⟨tr1, h, ?_⟩
      simp [List.filter_cons, hp1, hm]

/-- C5: in submounts-only mode, when the owning mount id of the target path
resolves to `m`, for every outcome of the individual detach calls, `unmount`
returns 0 and the destinations it attempts to detach, in order, are those of
the table records with `parentId = m` whose destination has the target path
as a character-wise prefix, in reverse table order: every selected record
once, a later record before an earlier one. -/
theorem unmount_submounts_reverse_order (fuel : Nat) (umount2 : Umount2) (umount_path : CStr)
    (mnt_table : List mount_info) (tr : Trace) (m : Int)
    (hm : parent_mntid mnt_table fuel umount_path = .ret m) (h0 : 0 ≤ m) :
    ∃ tr1, unmount fuel umount2 umount_path true mnt_table tr = .ret (0, tr ++ tr1) ∧
      tr1.map Prod.fst = ((mnt_table.filter (fun r =>
        decide ((r.parent_mntid : Int) = m) && umount_path.isPrefixOf r.destination)).reverse).map
          (fun r => r.destination) := by
  have h1 := parent_mntid_lt mnt_table fuel umount_path m hm
  obtain ⟨tr1, h, hmap⟩ := submount_loop_trace umount2 umount_path m h0 h1 mnt_table.reverse tr
  refine ⟨tr1, ?_, ?_⟩
  · unfold unmount
    simp only [Bool.not_true, Bool.false_eq_true, if_false, hm]
    rw [if_neg (by omega), h]
  · rw [hmap, List.filter_reverse]

/-- Witness of C5: target `"/foo"` owned by mount 3; the records `"/foo/x"`
and `"/foobar"` with parent 3 are detached latest first, `"/bar"` with
parent 3 and `"/foo/y"` with parent 4 are left alone. -/
theorem unmount_submounts_reverse_order_witness :
    ∃ tr1, unmount 10 (fun _ _ => -1) "/foo".toList true
        [⟨"/".toList, 1, 0⟩, ⟨"/foo".toList, 3, 1⟩, ⟨"/foo/x".toList, 4, 3⟩,
          ⟨"/bar".toList, 5, 3⟩, ⟨"/foo/y".toList, 6, 4⟩, ⟨"/foobar".toList, 7, 3⟩] []
        = .ret (0, [] ++ tr1) ∧
      tr1.map Prod.fst = ["/foobar".toList, "/foo/x".toList] :=
  unmount_submounts_reverse_order 10 (fun _ _ => -1) "/foo".toList
    [⟨"/".toList, 1, 0⟩, ⟨"/foo".toList, 3, 1⟩, ⟨"/foo/x".toList, 4, 3⟩,
      ⟨"/bar".toList, 5, 3⟩, ⟨"/foo/y".toList, 6, 4⟩, ⟨"/foobar".toList, 7, 3⟩] [] 3
    (by decide) (by decide)

theorem is_mounted_iff (path : CStr) (tbl : List mount_info) :
    is_mounted path tbl = true ↔ path ∈ tbl.map (fun r => r.destination) := by
  induction tbl with
  | nil => simp [is_mounted]
  | cons r rest ih =>
    rw [is_mounted]
    by_cases h : r.destination = path
    · simp [h]
    · rw [if_neg h, ih]
      simp only [List.map_cons, List.mem_cons]
      constructor
      · exact Or.inr
      · rintro (hh | hh)
        · exact absurd hh.symm h
        · exact hh

/-- C7: in whole-mount mode `unmount` attempts a detach if and only if some
record's destination equals the path exactly; then it attempts exactly one
detach, on the path itself, and returns what that call returned; when no
record matches it returns 0 and attempts no detach. -/
theorem unmount_whole_mount (fuel : Nat) (umount2 : Umount2) (umount_path : CStr)
    (mnt_table : List mount_info) (tr : Trace) :
    unmount fuel umount2 umount_path false mnt_table tr =
      if umount_path ∈ mnt_table.map (fun r => r.destination) then
        .ret (umount2 tr umount_path, tr ++ [(umount_path, umount2 tr umount_path)])
      else .ret (0, tr) := by
  unfold unmount
  by_cases h : umount_path ∈ mnt_table.map (fun r => r.destination)
  · have hm := (is_mounted_iff umount_path mnt_table).2 h
    simp [hm, h]
  · have hm : is_mounted umount_path mnt_table = false := by
      rw [← Bool.not_eq_true]; exact fun hh => h ((is_mounted_iff _ _).1 hh)
    simp only [Bool.not_false, if_true, hm, if_neg h]

theorem find_mntid_of_not_mem (path : CStr) (tbl : List mount_info)
    (h : path ∉ tbl.map (fun r => r.destination)) : find_mntid path tbl = -1 := by
  induction tbl with
  | nil => rfl
  | cons r rest ih =>
    simp only [List.map_cons, List.mem_cons, not_or] at h
    rw [find_mntid, if_neg h.1, ih h.2]

theorem find_mntid_of_find (path : CStr) (tbl : List mount_info) (r : mount_info)
    (h : tbl.find? (fun x => decide (x.destination = path)) = some r) :
    find_mntid path tbl = int_of_unsigned r.mntid := by
  induction tbl with
  | nil => simp at h
  | cons x rest ih =>
    rw [find_mntid]
    by_cases hx : x.destination = path
    · rw [List.find?_cons_of_pos _ (by simpa using hx)] at h
      simp only [Option.some.injEq] at h
      rw [if_pos hx.symm, h]
    · rw [List.find?_cons_of_neg _ (by simpa using hx)] at h
      rw [if_neg (fun hh => hx hh.symm), ih h]

theorem abs_path_ne_dot (comps : List CStr) : abs_path comps ≠ ['.'] := by
  unfold abs_path
  split
  · decide
  · rcases comps with _ | ⟨w, cs⟩
    · contradiction
    · simp [join_components]

/-- The owner lookup on canonical absolute paths: `parent_mntid` returns the
id of the first record whose destination is the longest of the path and its
ancestors found in the table, and -1 when none of them is in the table (ids
below `2^31`). -/
theorem parent_mntid_canonical (tbl : List mount_info) (comps : List CStr)
    (hcs : ∀ x ∈ comps, is_component x) (hids : ∀ r ∈ tbl, r.mntid < 2 ^ 31) :
    ∀ (i fuel : Nat), i ≤ comps.length → i < fuel →
      ((∀ j, j ≤ i → abs_path (comps.take j) ∉ tbl.map (fun r => r.destination)) →
        parent_mntid tbl fuel (abs_path (comps.take i)) = .ret (-1)) ∧
      (∀ j r, j ≤ i →
        tbl.find? (fun x => decide (x.destination = abs_path (comps.take j))) = some r →
        (∀ k, j < k → k ≤ i → abs_path (comps.take k) ∉ tbl.map (fun r => r.destination)) →
        parent_mntid tbl fuel (abs_path (comps.take i)) = .ret (r.mntid : Int)) := by
  intro i
  induction i with
  | zero =>
    intro fuel _ hfuel
    obtain ⟨f, rfl⟩ : ∃ f, fuel = f + 1 := ⟨fuel - 1, by omega⟩
    constructor
    · intro hno
      rw [parent_mntid]
      dsimp only
      rw [find_mntid_of_not_mem _ _ (hno 0 (le_refl _)), if_neg (by decide),
        if_pos (by simp [abs_path])]
    · intro j r hj hfind _
      have hj0 : j = 0 := by omega
      subst hj0
      have hr : r ∈ tbl := List.mem_of_find?_eq_some hfind
      rw [parent_mntid]
      dsimp only
      rw [find_mntid_of_find _ _ _ hfind, int_of_unsigned_of_lt _ (hids r hr),
        if_pos (by omega)]
  | succ i ih =>
    intro fuel hi hfuel
    obtain ⟨f, rfl⟩ : ∃ f, fuel = f + 1 := ⟨fuel - 1, by omega⟩
    have hstep := abs_path_take_succ comps hcs i hi
    have hrec := ih f (by omega) (by omega)
    constructor
    · intro hno
      rw [parent_mntid]
      dsimp only
      rw [find_mntid_of_not_mem _ _ (hno (i + 1) (le_refl _)), if_neg (by decide),
        if_neg hstep.1, hstep.2, if_neg (abs_path_ne_dot _)]
      exact hrec.1 (fun j hj => hno j (by omega))
    · intro j r hj hfind hlater
      rcases Nat.lt_or_ge j (i + 1) with hlt | hge
      · rw [parent_mntid]
        dsimp only
        rw [find_mntid_of_not_mem _ _ (hlater (i + 1) hlt (le_refl _)), if_neg (by decide),
          if_neg hstep.1, hstep.2, if_neg (abs_path_ne_dot _)]
        exact hrec.2 j r (by omega) hfind (fun k hk hk1 => hlater k hk (by omega))
      · have hj1 : j = i + 1 := by omega
        subst hj1
        have hr : r ∈ tbl := List.mem_of_find?_eq_some hfind
        rw [parent_mntid]
        dsimp only
        rw [find_mntid_of_find _ _ _ hfind, int_of_unsigned_of_lt _ (hids r hr),
          if_pos (by omega)]

/-- When the owner lookup fails, `unmount` in submounts-only mode returns -1
and attempts no detach. -/
theorem unmount_lookup_failure (fuel : Nat) (umount2 : Umount2) (umount_path : CStr)
    (mnt_table : List mount_info) (tr : Trace)
    (h : parent_mntid mnt_table fuel umount_path = .ret (-1)) :
    unmount fuel umount2 umount_path true mnt_table tr = .ret (-1, tr) := by
  unfold unmount
  simp only [Bool.not_true, Bool.false_eq_true, if_false, h]
  rw [if_pos (by decide)]

theorem parent_mntid_double_slash (tbl : List mount_info)
    (h : ['/', '/'] ∉ tbl.map (fun r => r.destination)) :
    ∀ fuel, parent_mntid tbl fuel ['/', '/'] = Outcome.nofuel := by
  intro fuel
  induction fuel with
  | zero => rfl
  | succ f ih =>
    rw [parent_mntid]
    dsimp only
    rw [find_mntid_of_not_mem _ _ h, if_neg (by decide), if_neg (by decide)]
    rw [show dirname ['/', '/'] = ['/', '/'] by decide, if_neg (by decide)]
    exact ih

/-- C6 (defect of the code): for the absolute path `"//data"` and a table
whose only record is the root mount `"/"` with id 1, `parent_mntid` returns
neither 1, the id of the longest listed ancestor, nor -1: glibc's `dirname`
maps `"//data"` to `"//"` and `"//"` to itself, the test for `"/"` never
succeeds, and the loop runs for ever, whatever the fuel. -/
theorem parent_mntid_diverges_on_double_slash :
    ∀ fuel, parent_mntid [⟨['/'], 1, 0⟩] fuel "//data".toList = Outcome.nofuel := by
  intro fuel
  rcases fuel with _ | f
  · rfl
  · rw [parent_mntid]
    dsimp only
    rw [show find_mntid "//data".toList [⟨['/'], 1, 0⟩] = -1 by decide, if_neg (by decide),
      if_neg (by decide), show dirname "//data".toList = ['/', '/'] by decide,
      if_neg (by decide)]
    exact parent_mntid_double_slash _ (by decide) f

/-! ## Claims C8 and C9: MountTable Builder -/

theorem split_tokens_delim (delim : List Char) (c : Char) (cs : CStr)
    (h : is_delim delim c = true) : split_tokens delim (c :: cs) = split_tokens delim cs := by
  cases cs <;> simp [split_tokens, h]

theorem split_tokens_dropWhile (delim : List Char) (s : CStr) :
    split_tokens delim (s.dropWhile (fun c => is_delim delim c)) = split_tokens delim s := by
  induction s with
  | nil => rfl
  | cons c cs ih =>
    by_cases h : is_delim delim c = true
    · rw [List.dropWhile_cons_of_pos h, ih, split_tokens_delim _ _ _ h]
    · rw [List.dropWhile_cons_of_neg h]

theorem split_tokens_token (delim : List Char) :
    ∀ (cs : CStr) (c : Char), is_delim delim c = false →
      split_tokens delim (c :: cs) = (c :: cs).takeWhile (fun x => !is_delim delim x) ::
        split_tokens delim (((c :: cs).dropWhile (fun x => !is_delim delim x)).drop 1) := by
  intro cs
  induction cs with
  | nil =>
    intro c hc
    simp [split_tokens, hc]
  | cons d ds ih =>
    intro c hc
    by_cases hd : is_delim delim d = true
    · simp [split_tokens, List.takeWhile_cons, List.dropWhile_cons, hc, hd]
    · simp only [Bool.not_eq_true] at hd
      have := ih d hd
      simp only [split_tokens, hc, hd, Bool.false_eq_true, if_false]
      simp only [split_tokens, hd, Bool.false_eq_true, if_false] at this
      rw [this]
      simp [List.takeWhile_cons, List.dropWhile_cons, hc, hd]

theorem strtok_none (delim : List Char) (s : CStr) (h : strtok delim s = none) :
    split_tokens delim s = [] := by
  unfold strtok at h
  dsimp only at h
  split at h
  · rename_i hnil
    rw [← split_tokens_dropWhile, hnil]; rfl
  · simp at h

theorem strtok_some (delim : List Char) (s token save : CStr)
    (h : strtok delim s = some (token, save)) :
    split_tokens delim s = token :: split_tokens delim save ∧ save.length < s.length := by
  unfold strtok at h
  dsimp only at h
  split at h
  · simp at h
  · rename_i hne
    simp only [Option.some.injEq, Prod.mk.injEq] at h
    obtain ⟨rfl, rfl⟩ := h
    rcases hs1 : s.dropWhile (fun c => is_delim delim c) with _ | ⟨c, cs⟩
    · exact absurd hs1 hne
    · have hc : is_delim delim c = false := by
        have := List.head_dropWhile_not (fun c => is_delim delim c) s (by rw [hs1]; simp)
        simpa [hs1] using this
      constructor
      · rw [← split_tokens_dropWhile, hs1]
        exact split_tokens_token delim cs c hc
      · have h1 : (s.dropWhile (fun c => is_delim delim c)).length ≤ s.length :=
          (List.dropWhile_sublist _).length_le
        rw [hs1] at h1
        have h2 : (((c :: cs).dropWhile (fun x => !is_delim delim x)).drop 1).length
            ≤ cs.length := by
          rw [List.dropWhile_cons_of_pos (by simp [hc])]
          rw [List.length_drop]
          have := (List.dropWhile_sublist (fun x => !is_delim delim x) (l := cs)).length_le
          omega
        simp only [List.length_cons] at h1
        omega

theorem table_holds_store (st : mnt_table_state) (recs : List mount_info) (r : mount_info)
    (h : table_holds st recs) :
    st.table_idx < st.mnt_table.length ∧
    (st.table_idx + 1 = st.nr_elem →
      table_holds ⟨grow_mountinfo_table (st.mnt_table.set st.table_idx (some r)) st.table_sz
        (st.table_sz + 64), st.table_sz + 64, st.nr_elem + 64, st.table_idx + 1⟩ (recs ++ [r])) ∧
    (st.table_idx + 1 ≠ st.nr_elem →
      table_holds ⟨st.mnt_table.set st.table_idx (some r), st.table_sz, st.nr_elem,
        st.table_idx + 1⟩ (recs ++ [r])) := by
  obtain ⟨hsz, hidx, hlt, htab⟩ := h
  have hlen : st.mnt_table.length = st.nr_elem + 1 := by
    rw [htab]; simp; omega
  have hset : st.mnt_table.set st.table_idx (some r)
      = (recs ++ [r]).map some ++ List.replicate (st.nr_elem + 1 - (recs.length + 1)) none := by
    rw [htab, hidx]
    have hrep : List.replicate (st.nr_elem + 1 - recs.length) (none : Option mount_info)
        = none :: List.replicate (st.nr_elem + 1 - (recs.length + 1)) none := by
      rw [← List.replicate_succ]
      congr 1
      omega
    rw [hrep, List.set_append_right _ _ (by simp)]
    simp
  have hlen2 : (recs ++ [r]).length = recs.length + 1 := by simp
  refine ⟨by omega, ?_, ?_⟩
  · intro hfull
    have hl : (st.mnt_table.set st.table_idx (some r)).length = st.table_sz := by
      rw [List.length_set]; omega
    have h0 : st.nr_elem + 1 - (recs.length + 1) = 1 := by omega
    have h64 : st.table_sz + 64 - st.table_sz = 64 := by omega
    have h64b : st.nr_elem + 64 + 1 - (recs ++ [r]).length = 65 := by omega
    refine ⟨?_, ?_, ?_, ?_⟩
    · show st.table_sz + 64 = st.nr_elem + 64 + 1
      omega
    · show st.table_idx + 1 = (recs ++ [r]).length
      omega
    · show (recs ++ [r]).length < st.nr_elem + 64
      omega
    · show grow_mountinfo_table (st.mnt_table.set st.table_idx (some r)) st.table_sz
          (st.table_sz + 64)
        = (recs ++ [r]).map some ++ List.replicate (st.nr_elem + 64 + 1 - (recs ++ [r]).length) none
      unfold grow_mountinfo_table
      have t1 : (st.mnt_table.set st.table_idx (some r)).take (st.table_sz + 64)
          = st.mnt_table.set st.table_idx (some r) := List.take_of_length_le (by omega)
      have t2 : (st.mnt_table.set st.table_idx (some r)).take st.table_sz
          = st.mnt_table.set st.table_idx (some r) := List.take_of_length_le (by omega)
      rw [t1, t2, hset, h0, h64, h64b, List.append_assoc]
      rfl
  · intro hroom
    refine ⟨hsz, ?_, ?_, ?_⟩
    · show st.table_idx + 1 = (recs ++ [r]).length
      omega
    · show (recs ++ [r]).length < st.nr_elem
      omega
    · show st.mnt_table.set st.table_idx (some r)
        = (recs ++ [r]).map some ++ List.replicate (st.nr_elem + 1 - (recs ++ [r]).length) none
      rw [hset, hlen2]

theorem token_loop_spec :
    ∀ (fuel : Nat) (s : CStr) (token_idx mntid parent : Nat) (st : mnt_table_state)
      (recs : List mount_info),
      table_holds st recs → s.length < fuel →
      ∃ st1, token_loop fuel s token_idx mntid parent st = .ret st1 ∧
        table_holds st1 (recs ++ emitted token_idx mntid parent (split_tokens [' '] s)) := by
  intro fuel
  induction fuel with
  | zero => intro s _ _ _ _ _ _ h; omega
  | succ f ih =>
    intro s token_idx mntid parent st recs hinv hfuel
    rw [token_loop]
    cases hst : strtok [' '] s with
    | none =>
      rw [strtok_none _ _ hst]
      exact ⟨st, rfl, by simpa [emitted] using hinv⟩
    | some p =>
      obtain ⟨token, save⟩ := p
      obtain ⟨hsplit, hlen⟩ := strtok_some _ _ _ _ hst
      rw [hsplit]
      dsimp only
      by_cases h5 : token_idx + 1 = 5
      · obtain ⟨hidx, hgrow, hroom⟩ := table_holds_store st recs
          ⟨token, if token_idx + 1 = 1 then unsigned_of_int (atoi token) else mntid,
            if token_idx + 1 = 2 then unsigned_of_int (atoi token) else parent⟩ hinv
        rw [if_neg (by simp [h5]), if_pos hidx]
        by_cases hfull : st.table_idx + 1 = st.nr_elem
        · rw [if_pos hfull]
          obtain ⟨st1, hrun, hh⟩ := ih save (token_idx + 1) _ _ _ _ (hgrow hfull) (by omega)
          refine ⟨st1, hrun, ?_⟩
          rw [emitted]
          simp only [h5, ne_eq, not_true_eq_false, if_false]
          simpa [h5] using hh
        · rw [if_neg hfull]
          obtain ⟨st1, hrun, hh⟩ := ih save (token_idx + 1) _ _ _ _ (hroom hfull) (by omega)
          refine ⟨st1, hrun, ?_⟩
          rw [emitted]
          simp only [h5, ne_eq, not_true_eq_false, if_false]
          simpa [h5] using hh
      · rw [if_pos h5]
        obtain ⟨st1, hrun, hh⟩ := ih save (token_idx + 1) _ _ st recs hinv (by omega)
        refine ⟨st1, hrun, ?_⟩
        rw [emitted]
        simp only [ne_eq, h5, not_false_eq_true, if_true]
        exact hh

theorem emitted_after_five (ts : List CStr) :
    ∀ (token_idx mntid parent : Nat), 5 ≤ token_idx → emitted token_idx mntid parent ts = [] := by
  induction ts with
  | nil => intro _ _ _ _; rfl
  | cons t rest ih =>
    intro token_idx mntid parent h
    rw [emitted]
    simp only [ne_eq]
    rw [if_pos (by omega)]
    exact ih _ _ _ (by omega)

theorem emitted_line (line : CStr) :
    emitted 0 0 0 (split_tokens [' '] line) = (record_of_line line).toList := by
  unfold record_of_line
  rcases split_tokens [' '] line with _ | ⟨t1, _ | ⟨t2, _ | ⟨t3, _ | ⟨t4, _ | ⟨t5, rest⟩⟩⟩⟩⟩ <;>
    simp [emitted, emitted_after_five]

theorem line_loop_spec :
    ∀ (lines : List CStr) (st : mnt_table_state) (recs : List mount_info),
      table_holds st recs →
      ∃ st1, line_loop lines st = .ret st1 ∧
        table_holds st1 (recs ++ lines.filterMap record_of_line) := by
  intro lines
  induction lines with
  | nil => intro st recs h; exact ⟨st, rfl, by simpa using h⟩
  | cons line rest ih =>
    intro st recs h
    obtain ⟨st1, hrun, hh⟩ := token_loop_spec (line.length + 1) line 0 0 0 st recs h (by omega)
    rw [line_loop, hrun]
    dsimp only
    obtain ⟨st2, hrun2, hh2⟩ := ih st1 _ hh
    refine ⟨st2, hrun2, ?_⟩
    rw [emitted_line] at hh2
    rw [List.filterMap_cons]
    cases hrec : record_of_line line with
    | none => simpa [hrec] using hh2
    | some r => simpa [hrec] using hh2

theorem parse_mountinfo_eq (lines : List CStr) :
    parse_mountinfo (some lines) = .ret (0, lines.filterMap record_of_line) := by
  have hinit : table_holds ⟨List.replicate (64 + 1) none, 64 + 1, 64, 0⟩ [] := by
    refine ⟨rfl, rfl, by decide, ?_⟩
    simp
  obtain ⟨st, hrun, hsz, hidx, hlt, htab⟩ := line_loop_spec lines _ [] hinit
  unfold parse_mountinfo
  simp only [hrun]
  rw [htab, hidx]
  simp only [List.nil_append]
  rw [List.take_left' (by simp)]
  simp [List.filterMap_map]

theorem split_tokens_no_delim (delim : List Char) :
    ∀ (s : CStr), ∀ t ∈ split_tokens delim s, ∀ x ∈ t, is_delim delim x = false := by
  intro s
  induction s with
  | nil => intro t ht; simp [split_tokens] at ht
  | cons a cs ih =>
    intro t ht x hx
    by_cases ha : is_delim delim a = true
    · rw [split_tokens_delim _ _ _ ha] at ht
      exact ih t ht x hx
    · simp only [Bool.not_eq_true] at ha
      rcases cs with _ | ⟨d, ds⟩
      · simp only [split_tokens, ha, Bool.false_eq_true, if_false, List.mem_singleton] at ht
        subst ht
        simp only [List.mem_singleton] at hx
        subst hx
        exact ha
      · by_cases hd : is_delim delim d = true
        · simp only [split_tokens, ha, hd, Bool.false_eq_true, if_false, if_true,
            List.mem_cons] at ht ih
          rcases ht with rfl | ht
          · simp only [List.mem_singleton] at hx
            subst hx
            exact ha
          · exact ih t ht x hx
        · simp only [Bool.not_eq_true] at hd
          rw [split_tokens_token delim (d :: ds) a ha] at ht
          rw [split_tokens_token delim ds d hd] at ih
          have htw : (a :: d :: ds).takeWhile (fun x => !is_delim delim x)
              = a :: (d :: ds).takeWhile (fun x => !is_delim delim x) := by
            rw [List.takeWhile_cons_of_pos (by simp [ha])]
          have hdw : (a :: d :: ds).dropWhile (fun x => !is_delim delim x)
              = (d :: ds).dropWhile (fun x => !is_delim delim x) := by
            rw [List.dropWhile_cons_of_pos (by simp [ha])]
          rw [htw, hdw] at ht
          rcases List.mem_cons.1 ht with rfl | ht
          · rcases List.mem_cons.1 hx with rfl | hx
            · exact ha
            · exact ih _ (List.mem_cons_self _ _) x hx
          · exact ih t (List.mem_cons_of_mem _ ht) x hx

theorem strtol_digits_eq (t : CStr) (hd : ∀ x ∈ t, x.isDigit = true) :
    ∀ acc, strtol_digits t acc = acc * 10 ^ t.length + decimal_value t := by
  induction t with
  | nil => intro acc; simp [strtol_digits, decimal_value]
  | cons a cs ih =>
    intro acc
    have ha : a.isDigit = true := hd a (by simp)
    rw [strtol_digits, if_pos ha, ih (fun x hx => hd x (by simp [hx]))]
    unfold decimal_value
    simp only [List.reverse_cons, List.map_append, List.map_cons, List.map_nil,
      Nat.ofDigits_append, List.length_map, List.length_reverse, Nat.ofDigits_singleton,
      List.length_cons]
    ring

theorem unsigned_of_int_int_of_unsigned (n : Nat) :
    unsigned_of_int (int_of_unsigned n) = n % 2 ^ 32 := by
  unfold unsigned_of_int int_of_unsigned
  have := Nat.mod_lt n (show 2 ^ 32 > 0 by decide)
  split <;> omega

theorem atoi_digits (t : CStr) (hd : ∀ x ∈ t, x.isDigit = true)
    (hv : decimal_value t < 2 ^ 32) : unsigned_of_int (atoi t) = decimal_value t := by
  have hval : strtol_digits t 0 = decimal_value t := by
    rw [strtol_digits_eq t hd 0]; simp
  have hdrop : t.dropWhile isspace = t := by
    rcases t with _ | ⟨a, cs⟩
    · rfl
    · have ha : a.isDigit = true := hd a (by simp)
      have hs : isspace a = false := by
        simp only [Char.isDigit, Bool.and_eq_true, decide_eq_true_eq] at ha
        simp only [isspace, Bool.or_eq_false_iff, beq_eq_false_iff_ne, ne_eq]
        refine ⟨⟨⟨⟨⟨?_, ?_⟩, ?_⟩, ?_⟩, ?_⟩, ?_⟩ <;>
          (intro h; rw [h] at ha; revert ha; decide)
      rw [List.dropWhile_cons_of_neg (by simp [hs])]
  have hv2 : unsigned_of_int (min ((strtol_digits t 0 : Nat) : Int) (2 ^ 63 - 1))
      = decimal_value t := by
    rw [hval]
    have : min ((decimal_value t : Nat) : Int) (2 ^ 63 - 1) = (decimal_value t : Int) := by
      apply min_eq_left; omega
    rw [this]
    unfold unsigned_of_int
    omega
  unfold atoi
  rw [unsigned_of_int_int_of_unsigned]
  simp only [hdrop]
  split
  · exfalso
    have := hd '-' (by simp)
    revert this; decide
  · exfalso
    have := hd '+' (by simp)
    revert this; decide
  · rw [hv2]
    exact Nat.mod_eq_of_lt hv

/-- C9 (amended): for every mount-table line that has at least 5 tokens when
split on the space character only, the record `parse_mountinfo` produces has
id `atoi` of the 1st token and parentId `atoi` of the 2nd, which is the
decimal value of a token made of decimal digits with a value below `2^32`,
and destination equal to the 5th space-delimited token exactly, which holds
no space; no other token has a part in the record. -/
theorem parse_mountinfo_line_fields (line t1 t2 t3 t4 t5 : CStr) (rest : List CStr)
    (h : split_tokens [' '] line = t1 :: t2 :: t3 :: t4 :: t5 :: rest) :
    parse_mountinfo (some [line])
        = .ret (0, [⟨t5, unsigned_of_int (atoi t1), unsigned_of_int (atoi t2)⟩]) ∧
      ' ' ∉ t5 ∧
      ((∀ x ∈ t1, x.isDigit = true) → decimal_value t1 < 2 ^ 32 →
        unsigned_of_int (atoi t1) = decimal_value t1) ∧
      ((∀ x ∈ t2, x.isDigit = true) → decimal_value t2 < 2 ^ 32 →
        unsigned_of_int (atoi t2) = decimal_value t2) := by
  refine ⟨?_, ?_, atoi_digits t1, atoi_digits t2⟩
  · rw [parse_mountinfo_eq]
    simp [record_of_line, h]
  · intro hmem
    have := split_tokens_no_delim [' '] line t5 (by rw [h]; simp) ' ' hmem
    revert this; decide

/-- Witness of C9: a line of `/proc/self/mountinfo`. -/
theorem parse_mountinfo_line_fields_witness :
    parse_mountinfo (some ["36 35 98:0 /mnt1 /mnt2 rw,noatime master:1 - ext3 /dev/root rw\n".toList])
      = .ret (0, [⟨"/mnt2".toList, 36, 35⟩]) :=
  (parse_mountinfo_line_fields
    "36 35 98:0 /mnt1 /mnt2 rw,noatime master:1 - ext3 /dev/root rw\n".toList
    "36".toList "35".toList "98:0".toList "/mnt1".toList "/mnt2".toList
    ["rw,noatime".toList, "master:1".toList, "-".toList, "ext3".toList, "/dev/root".toList,
      "rw\n".toList] (by decide)).1

/-- C9 as stated fails: the line `"4294967297 2 3 4 /mnt"` with its newline
has 5 tokens when split on spaces, tabs and newlines, the 5th being
`"/mnt"`; the record `parse_mountinfo` makes of it has the destination
`"/mnt"` followed by the newline, and the id 1 instead of 4294967297. -/
theorem parse_mountinfo_keeps_newline :
    split_tokens [' ', '\t', '\n'] "4294967297 2 3 4 /mnt\n".toList
        = ["4294967297".toList, "2".toList, "3".toList, "4".toList, "/mnt".toList] ∧
      parse_mountinfo (some ["4294967297 2 3 4 /mnt\n".toList])
        = .ret (0, [⟨"/mnt\n".toList, 1, 2⟩]) := by
  constructor
  · decide
  · rw [parse_mountinfo_eq]
    decide

/-! ## Claim C10: the trailing `"/*"` of a configuration line -/

theorem submounts_mark_star (P : CStr) :
    submounts_mark (P ++ ['/', '*']) (P.length + 2) = (true, P ++ ['/']) := by
  unfold submounts_mark
  have h1 : (P ++ ['/', '*']).get? (P.length + 2 - 1) = some '*' := by
    rw [show P.length + 2 - 1 = P.length + 1 by omega, List.get?_eq_getElem?,
      getElem?_append_add]
    rfl
  have h2 : (P ++ ['/', '*']).get? (P.length + 2 - 2) = some '/' := by
    rw [show P.length + 2 - 2 = P.length + 0 by omega, List.get?_eq_getElem?,
      getElem?_append_add]
    rfl
  rw [if_pos ⟨by omega, h1, h2⟩]
  rw [show P.length + 2 - 1 = P.length + 1 by omega]
  simp [List.take_append_eq_append_take]

theorem submounts_mark_plain (l : CStr) (h : ¬ (['/', '*'] <:+ l)) :
    submounts_mark l l.length = (false, l) := by
  unfold submounts_mark
  rw [if_neg]
  rintro ⟨hlen, h1, h2⟩
  apply h
  refine ⟨l.take (l.length - 2), ?_⟩
  have hd : l.drop (l.length - 2) = ['/', '*'] := by
    apply List.ext_getElem?
    intro i
    rw [List.getElem?_drop]
    rcases i with _ | _ | i
    · rw [List.get?_eq_getElem?] at h2
      simpa using h2
    · rw [List.get?_eq_getElem?] at h1
      rw [show l.length - 2 + (0 + 1) = l.length - 1 by omega, h1]
      rfl
    · rw [List.getElem?_eq_none (by omega)]
      rfl
  rw [← hd, List.take_append_drop]

/-- C10 (amended): for every newline-terminated static-config line of the form
`P + "/*"` that is not a comment, read while the target list is not full, the
config loader sets `submounts_only` to true for that entry and the string it
hands to canonicalization is `P + "/"`, the line with only its final `'*'`
removed; for every newline-terminated line that is not a comment and does
not end in `"/*"`, `submounts_only` is false and the string handed to
canonicalization is the line without its newline. -/
theorem conf_loop_submounts_suffix (realpath : CStr → Option CStr) (rest : List CStr)
    (mounts_on_host : List host_mount_info) (calls : List CStr)
    (hcap : mounts_on_host.length ≠ MAX_UMOUNTS) :
    (∀ P : CStr, iscomment (P ++ ['/', '*']) = 0 →
      conf_loop realpath ((P ++ ['/', '*', '\n']) :: rest) mounts_on_host calls
        = conf_loop realpath rest
            (match realpath (P ++ ['/']) with
              | some real_path => mounts_on_host ++ [⟨real_path, true⟩]
              | none => mounts_on_host)
            (calls ++ [P ++ ['/']])) ∧
    (∀ l : CStr, iscomment l = 0 → ¬ (['/', '*'] <:+ l) →
      conf_loop realpath ((l ++ ['\n']) :: rest) mounts_on_host calls
        = conf_loop realpath rest
            (match realpath l with
              | some real_path => mounts_on_host ++ [⟨real_path, false⟩]
              | none => mounts_on_host)
            (calls ++ [l])) := by
  constructor
  · intro P hnc
    have hlen : (P ++ ['/', '*', '\n']).length - 1 = P.length + 2 := by simp
    have htake : (P ++ ['/', '*', '\n']).take (P.length + 2) = P ++ ['/', '*'] := by
      simp [List.take_append_eq_append_take]
    rw [conf_loop]
    simp only [hlen, htake]
    rw [if_neg (by simp [hnc]), if_neg hcap, submounts_mark_star]
    cases realpath (P ++ ['/']) <;> rfl
  · intro l hnc hns
    have hlen : (l ++ ['\n']).length - 1 = l.length := by simp
    have htake : (l ++ ['\n']).take l.length = l := by simp
    rw [conf_loop]
    simp only [hlen, htake]
    rw [if_neg (by simp [hnc]), if_neg hcap, submounts_mark_plain l hns]
    cases realpath l <;> rfl

/-- Witness of C10: the lines `"/data/*"` and `"/etc/hosts"`, each with its
newline, read into an empty target list. -/
theorem conf_loop_submounts_suffix_witness :
    conf_loop (fun p => some p) ["/data/*\n".toList] [] []
        = (none, [⟨"/data/".toList, true⟩], ["/data/".toList]) ∧
      conf_loop (fun p => some p) ["/etc/hosts\n".toList] [] []
        = (none, [⟨"/etc/hosts".toList, false⟩], ["/etc/hosts".toList]) :=
  ⟨(conf_loop_submounts_suffix (fun p => some p) [] [] [] (by decide)).1 "/data".toList
      (by decide),
    (conf_loop_submounts_suffix (fun p => some p) [] [] [] (by decide)).2 "/etc/hosts".toList
      (by decide) (by decide)⟩

/-- C10 as stated fails: for the line `"/data/*"` with its newline the string
handed to canonicalization is `"/data/"`, not `"/data"`: only the `'*'` is
removed. And for a last line `"/data/*"` without a newline the loader takes
the `'*'` for the line terminator and leaves `submounts_only` false. -/
theorem conf_loop_keeps_trailing_slash :
    (conf_loop (fun p => some p) ["/data/*\n".toList] [] []).2.2 = ["/data/".toList] ∧
      (conf_loop (fun p => some p) ["/data/*\n".toList] [] []).2.2 ≠ ["/data".toList] ∧
      conf_loop (fun p => some p) ["/data/*".toList] [] []
        = (none, [⟨"/data/".toList, false⟩], ["/data/".toList]) := by
  decide

/-! ## Claims C11 and C13: comment lines and the line terminator -/

/-- C11: for every string, `iscomment` returns 1 if the string is empty,
consists only of whitespace characters, or has `'#'` as its first
non-whitespace character, and 0 for every other string; a configuration line
on which it returns 1 adds no unmount target and is not handed to
canonicalization. -/
theorem iscomment_iff (line : CStr) :
    iscomment line = (if line = [] ∨ line.all isspace = true ∨
        line.find? (fun x => !isspace x) = some '#' then 1 else 0) ∧
      ∀ (realpath : CStr → Option CStr) (t : Char) (rest : List CStr)
        (mounts_on_host : List host_mount_info) (calls : List CStr),
        (line = [] ∨ line.all isspace = true ∨ line.find? (fun x => !isspace x) = some '#') →
        conf_loop realpath ((line ++ [t]) :: rest) mounts_on_host calls
          = conf_loop realpath rest mounts_on_host calls := by
  have h1 : iscomment line = (if line = [] ∨ line.all isspace = true ∨
      line.find? (fun x => !isspace x) = some '#' then 1 else 0) := by
    induction line with
    | nil => simp [iscomment]
    | cons a rest ih =>
      rw [iscomment]
      by_cases ha : isspace a = true
      · rw [if_pos ha, ih]
        simp only [List.all_cons, ha, Bool.true_and, List.find?_cons, Bool.not_true,
          reduceCtorEq, false_or]
        by_cases hr : rest = []
        · subst hr; simp
        · simp [hr]
      · simp only [Bool.not_eq_true] at ha
        rw [if_neg (by simp [ha])]
        simp only [List.all_cons, ha, Bool.false_and, List.find?_cons, Bool.not_false,
          reduceCtorEq, false_or, Bool.false_eq_true, Option.some.injEq]
  refine ⟨h1, ?_⟩
  intro realpath t rest mounts_on_host calls hc
  have hlen : (line ++ [t]).length - 1 = line.length := by simp
  have htake : (line ++ [t]).take line.length = line := by simp
  rw [conf_loop]
  simp only [hlen, htake]
  rw [if_pos (by rw [h1, if_pos hc]; decide)]

/-- C13 (defect of the code): the config loader removes the last character of
every line it reads, newline or not. For a line that is not a comment and
does not end in `"/*"`, read as the text `t` followed by one more character
`c`, the string handed to canonicalization is `t`: when `c` is the newline
that is the line's text, but when the line is the last of a file without a
final newline, `c` is the last character of the path and is lost. -/
theorem conf_loop_drops_last_character (realpath : CStr → Option CStr) (rest : List CStr)
    (mounts_on_host : List host_mount_info) (calls : List CStr) (t : CStr) (c : Char)
    (hcap : mounts_on_host.length ≠ MAX_UMOUNTS) (hnc : iscomment t = 0)
    (hns : ¬ (['/', '*'] <:+ t)) :
    conf_loop realpath ((t ++ [c]) :: rest) mounts_on_host calls
      = conf_loop realpath rest
          (match realpath t with
            | some real_path => mounts_on_host ++ [⟨real_path, false⟩]
            | none => mounts_on_host)
          (calls ++ [t]) := by
  have hlen : (t ++ [c]).length - 1 = t.length := by simp
  have htake : (t ++ [c]).take t.length = t := by simp
  rw [conf_loop]
  simp only [hlen, htake]
  rw [if_neg (by simp [hnc]), if_neg hcap, submounts_mark_plain t hns]
  cases realpath t <;> rfl

/-- Witness of C13: a configuration file whose only line is `"/etc/hosts"`
without a final newline; the loader hands `"/etc/host"` to canonicalization. -/
theorem conf_loop_drops_last_character_witness :
    conf_loop (fun p => some p) ["/etc/hosts".toList] [] []
      = (none, [⟨"/etc/host".toList, false⟩], ["/etc/host".toList]) :=
  conf_loop_drops_last_character (fun p => some p) [] [] [] "/etc/host".toList 's'
    (by decide) (by decide) (by decide)

/-! ## Claim C14: the ancestor climb -/

theorem map_loop_eq_run_lookups (cfg : List config_mount_info) (host_mnt : CStr)
    (max_mapped : Nat) :
    ∀ (fuel : Nat) (str : CStr) (suffix : Option CStr) (cont : List CStr)
      (l : List (CStr × Option CStr)),
      climb_lookups host_mnt fuel str suffix = .ret l →
      map_loop cfg host_mnt max_mapped fuel str suffix cont = run_lookups cfg max_mapped l cont := by
  intro fuel
  induction fuel with
  | zero => intro str suffix cont l h; simp [climb_lookups] at h
  | succ f ih =>
    intro str suffix cont l h
    rw [climb_lookups] at h
    rw [map_loop]
    by_cases hroot : str = ['/']
    · rw [if_pos hroot] at h
      simp only [Outcome.ret.injEq] at h
      subst h
      rw [run_lookups]
      cases hm : map_one_entry cfg str cont max_mapped suffix with
      | ret p =>
        obtain ⟨r, c1⟩ := p
        dsimp only
        by_cases hr : r < 0
        · rw [if_pos hr, if_pos hr]
        · rw [if_neg hr, if_neg hr, if_pos hroot, run_lookups]
      | overflow => rfl
      | nofuel => rfl
    · rw [if_neg hroot] at h
      dsimp only at h
      cases hc : climb_lookups host_mnt f (dirname str)
          (some (if dirname str = ['/'] then host_mnt else host_mnt.drop (dirname str).length)) with
      | ret l1 =>
        rw [hc] at h
        simp only [Outcome.ret.injEq] at h
        subst h
        rw [run_lookups]
        cases hm : map_one_entry cfg str cont max_mapped suffix with
        | ret p =>
          obtain ⟨r, c1⟩ := p
          dsimp only
          by_cases hr : r < 0
          · rw [if_pos hr, if_pos hr]
          · rw [if_neg hr, if_neg hr, if_neg hroot]
            exact ih _ _ c1 l1 hc
        | overflow => rfl
        | nofuel => rfl
      | overflow => rw [hc] at h; simp at h
      | nofuel => rw [hc] at h; simp at h

theorem climb_lookups_canonical (comps : List CStr) (hcs : ∀ x ∈ comps, is_component x) :
    ∀ (i fuel : Nat), i ≤ comps.length → i < fuel →
      climb_lookups (abs_path comps) fuel (abs_path (comps.take i)) (lookup_at comps i).2
        = .ret (lookups_from comps i) := by
  intro i
  induction i with
  | zero =>
    intro fuel _ hfuel
    obtain ⟨f, rfl⟩ : ∃ f, fuel = f + 1 := ⟨fuel - 1, by omega⟩
    rw [climb_lookups, if_pos (by simp [abs_path])]
    rfl
  | succ i ih =>
    intro fuel hi hfuel
    obtain ⟨f, rfl⟩ : ∃ f, fuel = f + 1 := ⟨fuel - 1, by omega⟩
    have hstep := abs_path_take_succ comps hcs i hi
    have hcs1 : ∀ x ∈ comps.take i, is_component x := fun x hx => hcs x (List.mem_of_mem_take hx)
    have hne : comps ≠ [] := by
      intro h; rw [h] at hi; simp at hi
    have hsuf : (some (if abs_path (comps.take i) = ['/'] then abs_path comps
        else (abs_path comps).drop (abs_path (comps.take i)).length) : Option CStr)
        = (lookup_at comps i).2 := by
      have hin : ¬ i = comps.length := by omega
      have hroot : abs_path (comps.take i) = ['/'] ↔ i = 0 := by
        rw [abs_path_eq_root _ hcs1, List.take_eq_nil_iff]
        constructor
        · rintro (h1 | h1)
          · exact h1
          · exact absurd h1 hne
        · exact Or.inl
      unfold lookup_at
      dsimp only
      rw [if_neg hin]
      by_cases h0 : i = 0
      · rw [if_pos (hroot.2 h0), if_pos h0]
      · rw [if_neg (fun h => h0 (hroot.1 h)), if_neg h0]
    rw [climb_lookups, if_neg hstep.1]
    dsimp only
    rw [hstep.2, hsuf, ih f (by omega) (by omega)]
    rfl

theorem lookups_from_length (comps : List CStr) (i : Nat) :
    (lookups_from comps i).length = i + 1 := by
  induction i with
  | zero => rfl
  | succ i ih => simp [lookups_from, ih]

theorem lookups_from_get (comps : List CStr) :
    ∀ (i k : Nat), k ≤ i → (lookups_from comps i)[k]? = some (lookup_at comps (i - k)) := by
  intro i
  induction i with
  | zero =>
    intro k hk
    have : k = 0 := by omega
    subst this
    rfl
  | succ i ih =>
    intro k hk
    rcases k with _ | k
    · simp [lookups_from]
    · rw [lookups_from, List.getElem?_cons_succ, ih k (by omega)]
      congr 2
      omega

theorem climb_lookups_double_slash (host_mnt : CStr) :
    ∀ (fuel : Nat) (suffix : Option CStr),
      climb_lookups host_mnt fuel ['/', '/'] suffix = Outcome.nofuel := by
  intro fuel
  induction fuel with
  | zero => intro _; rfl
  | succ f ih =>
    intro suffix
    rw [climb_lookups, if_neg (by decide)]
    dsimp only
    rw [show dirname ['/', '/'] = ['/', '/'] by decide, ih]

theorem map_loop_double_slash (host_mnt : CStr) (max_mapped : Nat) :
    ∀ (fuel : Nat) (suffix : Option CStr) (cont : List CStr),
      map_loop [] host_mnt max_mapped fuel ['/', '/'] suffix cont = Outcome.nofuel := by
  intro fuel
  induction fuel with
  | zero => intro _ _; rfl
  | succ f ih =>
    intro suffix cont
    rw [map_loop]
    simp only [map_one_entry]
    rw [if_neg (by decide), if_neg (by decide), show dirname ['/', '/'] = ['/', '/'] by decide, ih]

/-- The climb on a host path that begins with exactly two slashes never
ends: with an empty mount list `map_mount_host_to_container` on `"//x"` is
out of fuel for every fuel. -/
theorem map_mount_diverges_on_double_slash (max_mapped : Nat) :
    ∀ fuel, map_mount_host_to_container fuel [] "//x".toList max_mapped = Outcome.nofuel := by
  intro fuel
  rcases fuel with _ | f
  · rfl
  · rw [map_mount_host_to_container, map_loop]
    simp only [map_one_entry]
    rw [if_neg (by decide), if_neg (by decide), show dirname "//x".toList = ['/', '/'] by decide]
    exact map_loop_double_slash _ _ f _ _

theorem is_delim_slash (x : Char) : is_delim ['/'] x = decide (x = '/') := by
  simp [is_delim]

theorem split_tokens_slash_component (w r : CStr) (hw : is_component w)
    (hr : r = [] ∨ r.head? = some '/') :
    split_tokens ['/'] ('/' :: w ++ r) = w :: split_tokens ['/'] r := by
  rw [List.cons_append, split_tokens_delim _ _ _ (by rw [is_delim_slash]; simp)]
  rcases w with _ | ⟨a, t⟩
  · exact absurd rfl hw.1
  · have ha : is_delim ['/'] a = false := by
      rw [is_delim_slash]
      simp only [decide_eq_false_iff_not]
      intro h; exact hw.2 (by simp [h])
    have hall : ∀ x ∈ a :: t, (!is_delim ['/'] x) = true := by
      intro x hx
      rw [is_delim_slash]
      simp only [Bool.not_eq_true', decide_eq_false_iff_not]
      intro h; exact hw.2 (h ▸ hx)
    rw [List.cons_append, split_tokens_token _ _ _ ha, ← List.cons_append]
    rw [List.takeWhile_append_of_pos hall, List.dropWhile_append_of_pos hall]
    rcases hr with rfl | hr
    · simp [split_tokens]
    · rcases r with _ | ⟨b, r1⟩
      · simp at hr
      · simp only [List.head?_cons, Option.some.injEq] at hr
        subst hr
        have hb : is_delim ['/'] '/' = true := by decide
        rw [List.takeWhile_cons_of_neg (by simp [hb]), List.dropWhile_cons_of_neg (by simp [hb])]
        simp [split_tokens_delim _ _ _ hb]

theorem join_components_head (comps : List CStr) :
    join_components comps = [] ∨ (join_components comps).head? = some '/' := by
  rcases comps with _ | ⟨w, cs⟩
  · left; rfl
  · right; rfl

/-- The components of a canonical absolute path are the pieces between its
slashes. -/
theorem split_tokens_abs_path (comps : List CStr) (hcs : ∀ x ∈ comps, is_component x) :
    split_tokens ['/'] (abs_path comps) = comps := by
  have hj : ∀ (l : List CStr), (∀ x ∈ l, is_component x) →
      split_tokens ['/'] (join_components l) = l := by
    intro l
    induction l with
    | nil => intro _; rfl
    | cons w cs ih =>
      intro h
      rw [join_components,
        split_tokens_slash_component w _ (h w (by simp)) (join_components_head cs),
        ih (fun x hx => h x (by simp [hx]))]
  unfold abs_path
  split
  · rename_i h; subst h; decide
  · exact hj comps hcs

/-- C14 (amended): for every canonical absolute host path `H` and every
config-mount list, the ancestor climb of `map_mount_host_to_container`
terminates: its lookups are `H` with no suffix, then each successive parent
directory, and finally `"/"`, each once, (number of components of `H`) + 1
lookups in all, fewer only when a lookup ends the loop with an error; at each
visited proper ancestor `A` other than `"/"` the suffix is `H` with the
prefix `A` removed, at `"/"` reached as an ancestor the suffix is the whole
of `H`, and when `H` itself is `"/"` the single lookup has no suffix. -/
theorem climb_visits_every_ancestor (cfg : List config_mount_info) (comps : List CStr)
    (max_mapped fuel : Nat) (hcs : ∀ x ∈ comps, is_component x) (hfuel : comps.length < fuel) :
    climb_lookups (abs_path comps) fuel (abs_path comps) none
        = .ret (lookups_from comps comps.length) ∧
      map_mount_host_to_container fuel cfg (abs_path comps) max_mapped
        = run_lookups cfg max_mapped (lookups_from comps comps.length) [] ∧
      (lookups_from comps comps.length).length
        = (split_tokens ['/'] (abs_path comps)).length + 1 ∧
      (∀ k, k ≤ comps.length →
        (lookups_from comps comps.length)[k]? = some (lookup_at comps (comps.length - k))) ∧
      (∀ i, i ≤ comps.length → (abs_path (comps.take i) = ['/'] ↔ i = 0)) := by
  have hclimb : climb_lookups (abs_path comps) fuel (abs_path comps) none
      = .ret (lookups_from comps comps.length) := by
    have := climb_lookups_canonical comps hcs comps.length fuel (le_refl _) hfuel
    rw [List.take_length] at this
    rw [← this]
    simp [lookup_at]
  refine ⟨hclimb, ?_, ?_, lookups_from_get comps comps.length, ?_⟩
  · rw [map_mount_host_to_container]
    exact map_loop_eq_run_lookups cfg _ max_mapped fuel _ none [] _ hclimb
  · rw [lookups_from_length, split_tokens_abs_path comps hcs]
  · intro i hi
    rw [abs_path_eq_root _ (fun x hx => hcs x (List.mem_of_mem_take hx)), List.take_eq_nil_iff]
    constructor
    · rintro (h | h)
      · exact h
      · subst h; simpa using hi
    · exact Or.inl

/-- Witness of C14: the climb on `"/a/b"` looks up `"/a/b"` with no suffix,
`"/a"` with the suffix `"/b"` and `"/"` with the suffix `"/a/b"`. -/
theorem climb_visits_every_ancestor_witness :
    climb_lookups "/a/b".toList 5 "/a/b".toList none
      = .ret [("/a/b".toList, none), ("/a".toList, some "/b".toList),
          ("/".toList, some "/a/b".toList)] :=
  (climb_visits_every_ancestor [] ["a".toList, "b".toList] 128 5 (by decide) (by decide)).1

/-- C14 as stated fails. On the host path `"/"` the lookup at `"/"` has no
suffix instead of the whole path, so the entry `{"/", "/mnt"}` maps it to
`"/mnt"`. On `"///"`, which has no component, the climb makes two lookups.
On `"//x"` the climb does not end: the candidate stays `"//"`. -/
theorem climb_on_root_and_double_slash :
    climb_lookups "/".toList 5 "/".toList none = .ret [("/".toList, none)] ∧
      map_mount_host_to_container 5 [⟨"/".toList, "/mnt".toList⟩] "/".toList 128
        = .ret (1, ["/mnt".toList]) ∧
      split_tokens ['/'] "///".toList = [] ∧
      climb_lookups "///".toList 5 "///".toList none
        = .ret [("///".toList, none), ("/".toList, some "///".toList)] ∧
      climb_lookups "//x".toList 40 "//x".toList none = Outcome.nofuel ∧
      map_mount_host_to_container 40 [] "//x".toList 128 = Outcome.nofuel := by
  refine ⟨by decide, by decide, by decide, by decide, by decide, by decide⟩

/-! ## Claim C12: per-target failures -/

end OciUmount
